import Mathlib

/-!
# Verification of the COO-to-CSR accumulator of `somacore.query._fast_csr`

This file gives a shallow embedding of the sparse CSR accumulation code in
`src/python-spec/src/somacore/query/_fast_csr.py` and proves the testable
properties stated for it (shape invariants, conservation, row bucketing,
order independence, empty input, dtype selection, re-indexing, error paths).

Modelling conventions:
* numpy arrays are mathematical integer sequences (`List Int` / `List Nat`);
  the explicit `.astype` cast in `_reindex_and_cast` is modelled by `signedWrap`,
  a two's-complement wrap at the selected width.  The theorems below are stated
  in the regime where every selected width can represent every stored value
  (axis lengths at most `2^31 - 1`), where numpy stores are exact.
* Python/numba negative array indexing is modelled by `pyIdx`.
* the worker pool: `append` submits two re-index tasks and immediately joins
  both, and `finalize` joins all scatter jobs before use; jobs write disjoint
  row ranges, so the embedding runs them in submission order.
* values (`soma_data`) are only moved, never computed with; they are modelled
  as `Int`.
-/

namespace FastCsr

/-- Python / numba array indexing: a negative index counts from the end
(`xs[-1]` is the last element).  `n` is the array length. -/
def pyIdx (n : Nat) (i : Int) : Nat :=
  (if i < 0 then (n : Int) + i else i).toNat

/-- Two's-complement wrap of an integer into the signed `w`-bit range,
modelling a numpy `.astype` cast to a signed integer dtype of width `w`. -/
def signedWrap (w : Nat) (x : Int) : Int :=
  (x + 2 ^ (w - 1)) % 2 ^ w - 2 ^ (w - 1)

/-- `_select_dtype` (lines 231-242): 64-bit iff the bound exceeds
`np.iinfo(np.int32).max = 2147483647`, else 32-bit.  The result is the
width in bits of the selected signed integer dtype. -/
def selectDtype (maxval : Int) : Nat :=
  if maxval > 2147483647 then 64 else 32

/-- Modelled from the pandas contract used by `_reindex_and_cast`:
`pd.Index(domain).get_indexer([id])` for a unique index returns the position
of `id` in `domain`, with sentinel `-1` when `id` is absent. -/
def lookupPos (domain : List Int) (id : Int) : Int :=
  match domain with
  | [] => -1
  | x :: rest =>
    if x = id then 0
    else
      let r := lookupPos rest id
      if r = -1 then -1 else r + 1

/-- Batch lookup: `pd.Index(domain).get_indexer(ids)`. -/
def getIndexer (domain : List Int) (ids : List Int) : List Int :=
  ids.map (lookupPos domain)

/-- `_reindex_and_cast` (lines 245-250):
`index.get_indexer(ids).astype(target_dtype, copy=False)`. -/
def reindexAndCast (domain : List Int) (ids : List Int) (w : Nat) : List Int :=
  (getIndexer domain ids).map (signedWrap w)

/-- One accumulated COO chunk `(row_ind, col_ind, data)` as stored in
`self.coo_chunks` (lines 77-84). -/
structure Chunk where
  rows : List Int
  cols : List Int
  data : List Int
  deriving DecidableEq, Repr

/-- The `_CSRAccumulator` state (lines 60-84): requested shape, the two axis
join-id domains, the per-row length histogram and the stored chunks.
`rowLength` holds the signed integer values of the numpy histogram array,
whose dtype is `_select_dtype(shape[1])` (line 73-75); updates to it wrap
at that width (see `accumRowLength`). -/
structure Acc where
  shape : Nat × Nat
  obsJoinids : List Int
  varJoinids : List Int
  rowLength : List Int
  cooChunks : List Chunk
  deriving DecidableEq, Repr

/-- `_CSRAccumulator.__init__` (lines 60-84): shape is the pair of domain
lengths, the histogram starts as `np.zeros(shape[0])`, no chunks. -/
def mkAcc (obs var : List Int) : Acc :=
  { shape := (obs.length, var.length)
    obsJoinids := obs
    varJoinids := var
    rowLength := List.replicate obs.length 0
    cooChunks := [] }

/-- `_accum_row_length` (lines 168-173): `for rind in row_ind:
row_length[rind] += 1`.  The increment runs in the histogram array's
fixed-width signed dtype (`_select_dtype(shape[1])`, chosen at
construction), so it wraps at width `w`; the parameter `w` encodes that
dtype, which in the source is implicit in the numpy array itself. -/
def accumRowLength (rowLength : List Int) (rowInd : List Int) (w : Nat) : List Int :=
  rowInd.foldl
    (fun rl r =>
      let i := pyIdx rl.length r
      rl.set i (signedWrap w (rl.getD i 0 + 1)))
    rowLength

/-- `_CSRAccumulator.append` (lines 86-114): re-index rows against the obs
domain and cols against the var domain (each cast to the width selected for
that axis), store the chunk, and update the histogram — whose dtype was
selected from `shape[1]` at construction (`shape` is immutable, so it is
recomputed here).  The two pool tasks are both joined before the method
returns, so their effect is sequential.  No validation of any kind is
performed on the argument lengths. -/
def Acc.append (a : Acc) (rowJoinids colJoinids data : List Int) : Acc :=
  let rowInd := reindexAndCast a.obsJoinids rowJoinids (selectDtype (a.shape.1 : Int))
  let colInd := reindexAndCast a.varJoinids colJoinids (selectDtype (a.shape.2 : Int))
  { a with
    cooChunks := a.cooChunks ++ [⟨rowInd, colInd, data⟩]
    rowLength := accumRowLength a.rowLength rowInd (selectDtype (a.shape.2 : Int)) }

/-- The three output buffers written by the scatter phase of `finalize`:
`data`, `indices` and the `indptr` array reused as per-row write cursors.
`indices` and `indptr` hold the signed values of numpy arrays of dtype
`_select_dtype(nnz)`; stores into them wrap at that width (see
`copyChunkRange`). -/
structure Bufs where
  data : List Int
  indices : List Int
  indptr : List Int
  deriving DecidableEq, Repr

/-- `_copy_chunk_range` (lines 176-194): for each entry `n` of the chunk,
skip it unless `row & row_rng_mask == row_rng_val`; otherwise write the
column id and value at the cursor `indptr[row]` and bump the cursor.
The parameter `w` encodes the dtype width of the `indices` and `indptr`
buffers (`_select_dtype(nnz)`), implicit in the numpy arrays themselves:
the stores `indices[ptr] = col` and `indptr[row] += 1` cast into that
dtype, wrapping at width `w`.  The store `data[ptr] = value` is a
same-dtype copy (the value dtype is fixed per accumulation run by the
upstream interface) and hence exact.  Array subscripts follow Python /
numba negative-index semantics (`pyIdx`). -/
def copyChunkRange (rowIndChunk colIndChunk dataChunk : List Int) (st : Bufs)
    (rowRngMask rowRngVal : Int) (w : Nat) : Bufs :=
  (List.range dataChunk.length).foldl
    (fun st n =>
      let row := rowIndChunk.getD n 0
      if Int.land row rowRngMask ≠ rowRngVal then st
      else
        let ri := pyIdx st.indptr.length row
        let ptr := st.indptr.getD ri 0
        { data := st.data.set (pyIdx st.data.length ptr) (dataChunk.getD n 0)
          indices := st.indices.set (pyIdx st.indices.length ptr)
            (signedWrap w (colIndChunk.getD n 0))
          indptr := st.indptr.set ri (signedWrap w (ptr + 1)) })
    st

/-- `_copy_chunklist_range` (lines 197-219): derive the row-range mask and
value for this job and scan every chunk through `_copy_chunk_range`.
`row_rng_mask = (2**64 - 1) >> bits << bits`, `row_rng_val = job << bits`;
`w` is the dtype width of the output `indices`/`indptr` buffers, passed
through to the store casts. -/
def copyChunklistRange (chunkList : List Chunk) (st : Bufs)
    (rowRngMaskBits job : Nat) (w : Nat) : Bufs :=
  let rowRngMask : Int := Int.ofNat (((2 ^ 64 - 1) >>> rowRngMaskBits) <<< rowRngMaskBits)
  let rowRngVal : Int := Int.ofNat (job <<< rowRngMaskBits)
  chunkList.foldl
    (fun st ch => copyChunkRange ch.rows ch.cols ch.data st rowRngMask rowRngVal w) st

/-- Inclusive prefix sums, modelling the accumulation of
`np.cumsum(self.row_length, out=indptr[1:])`.  numpy widens an int32 input
to (at least) the platform int64 for the accumulator, modelled here as
exact integers; the per-element cast into the `indptr` buffer's dtype is
applied at the use site in `finalize`. -/
def cumsum : List Int → List Int
  | [] => []
  | x :: xs => x :: (cumsum xs).map (x + ·)

/-- `_finalize_indptr` (lines 222-228): shift the cursor array one slot to
the right, writing `0` into slot 0 (`prev = 0; for r: t = indptr[r];
indptr[r] = prev; prev = t`).  Every stored value was just read from the
same array, so the same-dtype store is exact and no cast is modelled. -/
def finalizeIndptr (indptr : List Int) : List Int :=
  (indptr.foldl (fun p t => (p.1 ++ [p.2], t)) (([] : List Int), (0 : Int))).1

/-- `_CSRAccumulatorFinalResult` (lines 41-52).  `indptr` holds the signed
values of the `_select_dtype(nnz)`-typed numpy array. -/
structure FinalResult where
  data : List Int
  indptr : List Int
  indices : List Int
  shape : Nat × Nat
  deriving DecidableEq, Repr

/-- `_CSRAccumulator.finalize` (lines 116-165).  When `nnz == 0` the source
builds `sparse.csr_matrix((0, 0), dtype=np.float32)` — a 0-row matrix whose
components are `data = []`, `indptr = [0]` (length 1), `indices = []` — and
returns those components together with `shape = self.shape`.  Otherwise it
selects `index_dtype = _select_dtype(nnz)`, prefix-sums the histogram into
a fresh `indptr` of that dtype (each cumulative sum cast into it), allocates
`data`/`indices` of length `nnz` (`np.empty` modelled as zero-filled; the
theorems only describe positions the scatter writes), runs one scatter job
per row range of `2^18` rows, and unshifts the cursors. -/
def Acc.finalize (a : Acc) : FinalResult :=
  let nnz : Nat := (a.cooChunks.map (fun ch => ch.data.length)).sum
  if nnz = 0 then
    { data := [], indptr := [0], indices := [], shape := a.shape }
  else
    let indexDtype := selectDtype (nnz : Int)
    let indptr : List Int := 0 :: (cumsum a.rowLength).map (signedWrap indexDtype)
    let st0 : Bufs := { data := List.replicate nnz 0, indices := List.replicate nnz 0, indptr := indptr }
    let rowRngMaskBits := 18
    let nJobs := (a.shape.1 >>> rowRngMaskBits) + 1
    let st := (List.range nJobs).foldl
      (fun st job => copyChunklistRange a.cooChunks st rowRngMaskBits job indexDtype) st0
    { data := st.data, indptr := finalizeIndptr st.indptr, indices := st.indices, shape := a.shape }

/-- `finalize` with the accumulator state threaded through explicitly.  The
source method reads `self.shape`, `self.row_length` and `self.coo_chunks`
but assigns no attribute of `self`: `indptr`, `data` and `indices` are
freshly allocated with `np.empty`, `numba.typed.List(self.coo_chunks)` is a
new list, and `np.cumsum(..., out=indptr[1:])` and `_finalize_indptr` write
only into the fresh `indptr`.  The threaded state is therefore returned
unchanged. -/
def Acc.finalizeMut (a : Acc) : FinalResult × Acc :=
  (a.finalize, a)

/-- An input batch: `(soma_dim_0, soma_dim_1, soma_data)` columns of one
table yielded by the upstream read. -/
abbrev InChunk := List Int × List Int × List Int

/-- A whole accumulation run: construct the accumulator over the two
domains and `append` every batch in order (as `_read_csr` does, lines
264-273). -/
def runAcc (obs var : List Int) (input : List InChunk) : Acc :=
  input.foldl (fun a c => a.append c.1 c.2.1 c.2.2) (mkAcc obs var)

/-- Total number of appended entries: the sum of the value-column lengths,
matching `nnz = sum(len(chunk[2]) for chunk in self.coo_chunks)`. -/
def totalNnz (input : List InChunk) : Nat :=
  (input.map (fun c => c.2.2.length)).sum

/-- The scipy `csr_matrix` fields assigned by `_create_scipy_csr_matrix`. -/
structure CsrMatrix where
  data : List Int
  indices : List Int
  indptr : List Int
  shape : Nat × Nat
  deriving DecidableEq, Repr

/-- `_create_scipy_csr_matrix` (lines 280-303): allocate a blank object with
`csr_matrix.__new__` and assign the four components directly, bypassing the
validating constructor. -/
def createScipyCsrMatrix (data : List Int) (indices : List Int) (indptr : List Int)
    (shape : Nat × Nat) : CsrMatrix :=
  { data := data, indices := indices, indptr := indptr, shape := shape }

/-- The pyarrow `SparseCSRMatrix` produced by
`pa.SparseCSRMatrix.from_numpy(data, indptr, indices, shape=shape)`. -/
structure ArrowCsrMatrix where
  data : List Int
  indptr : List Int
  indices : List Int
  shape : Nat × Nat
  deriving DecidableEq, Repr

/-- The upstream object handed to `_read_csr`: whether it is an instance of
`somacore.data.SparseNDArray`, its `ndim`, and the sequence of batches its
`read(...).tables()` iterator would yield. -/
structure SparseNDArrayLike where
  isSparseNDArray : Bool
  ndim : Nat
  tables : List InChunk
  deriving DecidableEq, Repr

/-- `_read_csr` (lines 253-277): raise `TypeError` unless the input is a 2-D
`SparseNDArray`; otherwise append every yielded batch and finalize. -/
def readCsrE (m : SparseNDArrayLike) (obsJoinids varJoinids : List Int) :
    Except String FinalResult :=
  if m.isSparseNDArray = false ∨ m.ndim ≠ 2 then
    Except.error "TypeError: Can only read from a 2D SparseNDArray"
  else
    Except.ok ((runAcc obsJoinids varJoinids m.tables).finalize)

/-- `read_scipy_csr` (lines 17-26): `_read_csr` then `_create_scipy_csr_matrix`. -/
def readScipyCsr (m : SparseNDArrayLike) (obsJoinids varJoinids : List Int) :
    Except String CsrMatrix :=
  (readCsrE m obsJoinids varJoinids).map
    (fun q => createScipyCsrMatrix q.data q.indices q.indptr q.shape)

/-- `read_arrow_csr` (lines 29-38): `_read_csr` then `pa.SparseCSRMatrix.from_numpy`. -/
def readArrowCsr (m : SparseNDArrayLike) (obsJoinids varJoinids : List Int) :
    Except String ArrowCsrMatrix :=
  (readCsrE m obsJoinids varJoinids).map
    (fun q => { data := q.data, indptr := q.indptr, indices := q.indices, shape := q.shape })

/-- The entries `(row, col, value)` of one stored chunk, in order. -/
def chunkEntries (ch : Chunk) : List (Int × Int × Int) :=
  ch.rows.zip (ch.cols.zip ch.data)

/-- All appended entries of an accumulator, in append order. -/
def accEntries (a : Acc) : List (Int × Int × Int) :=
  (a.cooChunks.map chunkEntries).flatten

/-- The appended entries whose re-indexed row is `r`. -/
def rowFilter (L : List (Int × Int × Int)) (r : Nat) : List (Int × Int × Int) :=
  L.filter (fun e => e.1 = (r : Int))

/-- How many entries of `L` have re-indexed row `r`. -/
def countRow (L : List (Int × Int × Int)) (r : Nat) : Nat :=
  (rowFilter L r).length

/-- Number of entries of `L` with re-indexed row below `r`: the exclusive
prefix sum of the per-row counts. -/
def startOf (L : List (Int × Int × Int)) (r : Nat) : Nat :=
  Finset.sum (Finset.range r) (fun i => countRow L i)

/-- Row `r`'s slice of the result: the `(col, value)` pairs at positions
`indptr[r] ≤ p < indptr[r+1]` of `indices`/`data`. -/
def rowSlicePairs (res : FinalResult) (r : Nat) : List (Int × Int) :=
  ((res.indices.zip res.data).drop (res.indptr.getD r 0).toNat).take
    ((res.indptr.getD (r + 1) 0).toNat - (res.indptr.getD r 0).toNat)

/-! ## Basic lemmas about the numeric helpers -/

/-- A value already inside the signed `w`-bit range is unchanged by the cast. -/
theorem signedWrap_eq_self (w : Nat) (x : Int) (hw : 0 < w)
    (h1 : -(2 ^ (w - 1)) ≤ x) (h2 : x < 2 ^ (w - 1)) : signedWrap w x = x := by
  have hpow : (2 : Int) ^ w = 2 ^ (w - 1) * 2 := by
    conv_lhs => rw [show w = w - 1 + 1 by omega]
    rw [pow_succ]
  unfold signedWrap
  have h0 : (0 : Int) ≤ x + 2 ^ (w - 1) := by omega
  have hlt : x + 2 ^ (w - 1) < 2 ^ w := by omega
  rw [Int.emod_eq_of_lt h0 hlt]
  omega

theorem lookupPos_not_mem {domain : List Int} {id : Int} (h : id ∉ domain) :
    lookupPos domain id = -1 := by
  induction domain with
  | nil => rfl
  | cons x rest ih =>
    simp only [List.mem_cons, not_or] at h
    simp only [lookupPos, if_neg (fun hx : x = id => h.1 hx.symm), ih h.2]
    simp

theorem lookupPos_mem {domain : List Int} {id : Int} (h : id ∈ domain) :
    0 ≤ lookupPos domain id ∧ lookupPos domain id < (domain.length : Int) := by
  induction domain with
  | nil => cases h
  | cons x rest ih =>
    by_cases hx : x = id
    · simp only [lookupPos, if_pos hx, List.length_cons]
      constructor
      · omega
      · positivity
    · have hrest : id ∈ rest := by
        rcases List.mem_cons.mp h with h' | h'
        · exact absurd h'.symm hx
        · exact h'
      obtain ⟨h1, h2⟩ := ih hrest
      have hne : lookupPos rest id ≠ -1 := by omega
      simp only [lookupPos, if_neg hx, if_neg hne, List.length_cons]
      push_cast
      omega

theorem lookupPos_nodup {domain : List Int} (hnd : domain.Nodup) {i : Nat}
    (hi : i < domain.length) {id : Int} (hid : domain.getD i 0 = id) :
    lookupPos domain id = (i : Int) := by
  induction domain generalizing i with
  | nil => simp at hi
  | cons x rest ih =>
    rcases List.nodup_cons.mp hnd with ⟨hx, hrest⟩
    cases i with
    | zero =>
      rw [List.getD_cons_zero] at hid
      simp only [lookupPos, if_pos hid]
      rfl
    | succ i =>
      have hi' : i < rest.length := by simpa using hi
      rw [List.getD_cons_succ] at hid
      have hmem : id ∈ rest := by
        rw [← hid, List.getD_eq_getElem rest 0 hi']
        exact List.getElem_mem hi'
      have hxid : x ≠ id := fun h => hx (h ▸ hmem)
      have hrec := ih hrest hi' hid
      have hpos := (lookupPos_mem hmem).1
      have hne : lookupPos rest id ≠ -1 := by omega
      simp only [lookupPos, if_neg hxid, if_neg hne, hrec]
      push_cast
      ring

/-- `List.getD` after `List.set`. -/
theorem getD_set {α : Type _} (l : List α) (i j : Nat) (a d : α) :
    (l.set i a).getD j d = if i = j ∧ j < l.length then a else l.getD j d := by
  rw [List.getD_eq_getElem?_getD, List.getD_eq_getElem?_getD, List.getElem?_set]
  by_cases hij : i = j
  · subst hij
    by_cases hi : i < l.length
    · simp [hi]
    · simp [hi, List.getElem?_eq_none (le_of_not_lt hi)]
  · simp [hij]

theorem getD_dropLast {α : Type _} (l : List α) (s : Nat) (d : α) (h : s < l.length - 1) :
    l.dropLast.getD s d = l.getD s d := by
  rw [List.dropLast_eq_take, List.getD_eq_getElem?_getD, List.getD_eq_getElem?_getD,
    List.getElem?_take, if_pos h]

theorem ext_getD {α : Type _} (l1 l2 : List α) (d : α) (hlen : l1.length = l2.length)
    (h : ∀ k, k < l1.length → l1.getD k d = l2.getD k d) : l1 = l2 := by
  apply List.ext_getElem hlen
  intro n h1 h2
  have hn := h n h1
  rwa [List.getD_eq_getElem _ _ h1, List.getD_eq_getElem _ _ h2] at hn

theorem zip_getD {α β : Type _} (l1 : List α) (l2 : List β) (i : Nat) (d1 : α) (d2 : β)
    (h1 : i < l1.length) (h2 : i < l2.length) :
    (l1.zip l2).getD i (d1, d2) = (l1.getD i d1, l2.getD i d2) := by
  have hz : i < (l1.zip l2).length := by rw [List.length_zip]; omega
  rw [List.getD_eq_getElem _ _ hz, List.getD_eq_getElem _ _ h1, List.getD_eq_getElem _ _ h2,
    List.getElem_zip]

theorem drop_take_getD {α : Type _} (l : List α) (m n k : Nat) (d : α) (hk : k < n) :
    ((l.drop m).take n).getD k d = l.getD (m + k) d := by
  rw [List.getD_eq_getElem?_getD, List.getElem?_take, if_pos hk, List.getElem?_drop,
    ← List.getD_eq_getElem?_getD]

theorem map_getD {α β : Type _} (f : α → β) (l : List α) (k : Nat) (d : β) (dα : α)
    (hk : k < l.length) : (l.map f).getD k d = f (l.getD k dα) := by
  rw [List.getD_eq_getElem _ _ (by simpa using hk), List.getElem_map,
    List.getD_eq_getElem _ _ hk]

theorem length_cumsum (l : List Int) : (cumsum l).length = l.length := by
  induction l with
  | nil => rfl
  | cons x xs ih => simp [cumsum, ih]

theorem cumsum_getD (l : List Int) (r : Nat) (hr : r < l.length) :
    (cumsum l).getD r 0 = Finset.sum (Finset.range (r + 1)) (fun i => l.getD i 0) := by
  induction l generalizing r with
  | nil => simp at hr
  | cons x xs ih =>
    cases r with
    | zero => simp [cumsum]
    | succ r =>
      have hr' : r < xs.length := by simpa using hr
      have hlen : r < (cumsum xs).length := by rw [length_cumsum]; exact hr'
      have hlen' : r < ((cumsum xs).map (x + ·)).length := by simpa using hlen
      rw [show cumsum (x :: xs) = x :: (cumsum xs).map (x + ·) from rfl,
        List.getD_cons_succ, List.getD_eq_getElem _ 0 hlen', List.getElem_map,
        ← List.getD_eq_getElem (cumsum xs) 0 hlen, ih r hr',
        Finset.sum_range_succ' (fun i => (x :: xs).getD i 0) (r + 1)]
      simp only [List.getD_cons_succ, List.getD_cons_zero]
      omega

theorem finalizeIndptr_foldl (l : List Int) (acc : List Int) (prev : Int) :
    (l.foldl (fun p t => (p.1 ++ [p.2], t)) (acc, prev)).1 = acc ++ (prev :: l).dropLast := by
  induction l generalizing acc prev with
  | nil => simp
  | cons t ts ih =>
    rw [List.foldl_cons, ih, List.dropLast_cons₂]
    simp

theorem finalizeIndptr_eq (l : List Int) : finalizeIndptr l = (0 :: l).dropLast := by
  unfold finalizeIndptr
  rw [finalizeIndptr_foldl]
  simp

/-! ## The row-range mask -/

/-- The job mask keeps exactly the bits at or above `b` (for values below `2^64`). -/
theorem land_mask_eq {a : Nat} (b : Nat) (ha : a < 2 ^ 64) :
    a &&& (((2 ^ 64 - 1) >>> b) <<< b) = (a >>> b) <<< b := by
  apply Nat.eq_of_testBit_eq
  intro i
  rw [Nat.testBit_land, Nat.testBit_shiftLeft, Nat.testBit_shiftLeft, Nat.testBit_shiftRight,
    Nat.testBit_shiftRight, Nat.testBit_two_pow_sub_one]
  by_cases hbi : b ≤ i
  · have hadd : b + (i - b) = i := by omega
    rw [hadd]
    by_cases hi : i < 64
    · simp [hbi, hi, ge_iff_le]
    · have hfalse : a.testBit i = false :=
        Nat.testBit_eq_false_of_lt
          (lt_of_lt_of_le ha (Nat.pow_le_pow_right (by norm_num) (by omega)))
      simp [hfalse, hi]
  · simp [hbi, ge_iff_le]

/-- The scatter condition `row & mask == job << b` selects exactly the rows
whose high bits equal `job`. -/
theorem land_mask_cond {a : Nat} (b j : Nat) (ha : a < 2 ^ 64) :
    a &&& (((2 ^ 64 - 1) >>> b) <<< b) = j <<< b ↔ a >>> b = j := by
  rw [land_mask_eq b ha]
  constructor
  · intro h
    rw [Nat.shiftLeft_eq, Nat.shiftLeft_eq] at h
    exact Nat.eq_of_mul_eq_mul_right (Nat.two_pow_pos b) h
  · intro h
    rw [h]

/-! ## Fold-reshaping lemmas for the scatter phase -/

theorem foldl_ite_filter {α β : Type _} (p : α → Bool) (f : β → α → β) (l : List α) (b : β) :
    l.foldl (fun st e => if p e then f st e else st) b = (l.filter p).foldl f b := by
  induction l generalizing b with
  | nil => rfl
  | cons e l ih =>
    rw [List.foldl_cons, List.filter_cons]
    by_cases hp : p e
    · rw [if_pos hp, if_pos hp, List.foldl_cons, ih]
    · rw [if_neg hp, if_neg hp, ih]

theorem foldl_ite_filter_prop {α β : Type _} (p : α → Prop) [DecidablePred p] (f : β → α → β)
    (l : List α) (b : β) :
    l.foldl (fun st e => if p e then f st e else st) b
      = (l.filter (fun e => decide (p e))).foldl f b := by
  induction l generalizing b with
  | nil => rfl
  | cons e l ih =>
    rw [List.foldl_cons, List.filter_cons]
    by_cases hp : p e
    · rw [if_pos hp, if_pos (by simpa using hp), List.foldl_cons, ih]
    · rw [if_neg hp, if_neg (by simpa using hp), ih]

theorem foldl_congr_mem {α β : Type _} {f g : β → α → β} (l : List α)
    (h : ∀ (b : β), ∀ a ∈ l, f b a = g b a) (b : β) : l.foldl f b = l.foldl g b := by
  induction l generalizing b with
  | nil => rfl
  | cons a l ih =>
    rw [List.foldl_cons, List.foldl_cons, h b a (List.mem_cons_self a l)]
    exact ih (fun b a ha => h b a (List.mem_cons_of_mem _ ha)) _

theorem flatten_ite_single {α : Type _} (j0 : Nat) (x : List α) :
    ∀ n, ((List.range n).map (fun j => if j = j0 then x else [])).flatten
      = if j0 < n then x else [] := by
  intro n
  induction n with
  | zero => simp
  | succ n ih =>
    rw [List.range_succ, List.map_append, List.flatten_append, ih]
    by_cases h : j0 = n
    · subst h
      simp [Nat.lt_irrefl, Nat.lt_succ_self]
    · by_cases h2 : j0 < n
      · have h3 : j0 < n + 1 := by omega
        simp [h2, h3, Ne.symm h]
      · have h3 : ¬ j0 < n + 1 := by omega
        simp [h2, h3, Ne.symm h]

/-- Python indexing with a value that is the cast of a natural number is
plain indexing. -/
theorem pyIdx_natCast (n m : Nat) : pyIdx n ((m : Nat) : Int) = m := by
  unfold pyIdx
  rw [if_neg (by omega)]
  exact Int.toNat_natCast m

/-- The effect of `_copy_chunk_range` on one selected entry `(row, col, value)`:
write `col`/`value` at the cursor `indptr[row]` and bump the cursor, the
`indices`/`indptr` stores wrapping at the buffers' dtype width `w`. -/
def procEntry (w : Nat) (st : Bufs) (e : Int × Int × Int) : Bufs :=
  let ri := pyIdx st.indptr.length e.1
  let ptr := st.indptr.getD ri 0
  { data := st.data.set (pyIdx st.data.length ptr) e.2.2
    indices := st.indices.set (pyIdx st.indices.length ptr) (signedWrap w e.2.1)
    indptr := st.indptr.set ri (signedWrap w (ptr + 1)) }

/-- One iteration of `_copy_chunk_range`: process the entry iff its row
matches the job's row range. -/
def condStep (mask val : Int) (w : Nat) (st : Bufs) (e : Int × Int × Int) : Bufs :=
  if Int.land e.1 mask = val then procEntry w st e else st

/-- Which scatter job handles an entry: the row's bits above bit 18. -/
def jobOf (e : Int × Int × Int) : Nat := e.1.toNat >>> 18

theorem foldl_range_get {α β : Type _} (l : List α) (g : β → Nat → β) (f : β → α → β)
    (hg : ∀ (b : β) (n : Nat) (hn : n < l.length), g b n = f b (l.get ⟨n, hn⟩)) :
    ∀ (n : Nat), n ≤ l.length → ∀ (b : β),
      (List.range n).foldl g b = (l.take n).foldl f b := by
  intro n
  induction n with
  | zero => intro _ b; rfl
  | succ n ih =>
    intro hn b
    have hn' : n < l.length := by omega
    rw [List.range_succ, List.foldl_append, ih (by omega) b, List.take_succ,
      List.getElem?_eq_getElem hn', List.foldl_append]
    simp only [Option.toList_some, List.foldl_cons, List.foldl_nil]
    exact hg _ n hn'

/-- `_copy_chunk_range` is the fold of `condStep` over the chunk's entries. -/
theorem copyChunkRange_eq (ch : Chunk) (hr : ch.rows.length = ch.data.length)
    (hc : ch.cols.length = ch.data.length) (st : Bufs) (mask val : Int) (w : Nat) :
    copyChunkRange ch.rows ch.cols ch.data st mask val w
      = (chunkEntries ch).foldl (condStep mask val w) st := by
  have hlen : (chunkEntries ch).length = ch.data.length := by
    simp [chunkEntries, List.length_zip, hr, hc]
  have hg : ∀ (b : Bufs) (n : Nat) (hn : n < (chunkEntries ch).length),
      (fun st n =>
        let row := ch.rows.getD n 0
        if Int.land row mask ≠ val then st
        else
          let ri := pyIdx st.indptr.length row
          let ptr := st.indptr.getD ri 0
          { data := st.data.set (pyIdx st.data.length ptr) (ch.data.getD n 0)
            indices := st.indices.set (pyIdx st.indices.length ptr)
              (signedWrap w (ch.cols.getD n 0))
            indptr := st.indptr.set ri (signedWrap w (ptr + 1)) : Bufs }) b n
      = condStep mask val w b ((chunkEntries ch).get ⟨n, hn⟩) := by
    intro b n hn
    have hd : n < ch.data.length := hlen ▸ hn
    have hrw : n < ch.rows.length := by omega
    have hcl : n < ch.cols.length := by omega
    have he : (chunkEntries ch).get ⟨n, hn⟩ = (ch.rows[n], ch.cols[n], ch.data[n]) := by
      simp [chunkEntries, List.get_eq_getElem, List.getElem_zip]
    rw [he]
    simp only [condStep, procEntry]
    rw [List.getD_eq_getElem _ 0 hrw, List.getD_eq_getElem _ 0 hcl, List.getD_eq_getElem _ 0 hd]
    by_cases hcond : Int.land ch.rows[n] mask = val
    · rw [if_neg (fun h => h hcond), if_pos hcond]
    · rw [if_pos hcond, if_neg hcond]
  have := foldl_range_get (chunkEntries ch) _ (condStep mask val w) hg ch.data.length
    (le_of_eq hlen.symm) st
  unfold copyChunkRange
  rw [this, ← hlen, List.take_length]

/-- `_copy_chunklist_range` is the fold of `condStep` over all entries of
all chunks, in chunk order. -/
theorem copyChunklistRange_eq (chunks : List Chunk)
    (hlen : ∀ ch ∈ chunks, ch.rows.length = ch.data.length ∧ ch.cols.length = ch.data.length)
    (st : Bufs) (bits job : Nat) (w : Nat) :
    copyChunklistRange chunks st bits job w
      = ((chunks.map chunkEntries).flatten).foldl
          (condStep (Int.ofNat (((2 ^ 64 - 1) >>> bits) <<< bits)) (Int.ofNat (job <<< bits)) w)
          st := by
  unfold copyChunklistRange
  rw [List.foldl_flatten, List.foldl_map]
  exact foldl_congr_mem chunks
    (fun b ch hch => copyChunkRange_eq ch (hlen ch hch).1 (hlen ch hch).2 b _ _ w) st

/-- Under valid rows the scatter condition of job `j` with 18 mask bits is
exactly `jobOf e = j`, so one job's pass over the entries processes its
bucket in order. -/
theorem foldl_condStep_eq_bucket (E : List (Int × Int × Int)) (nRows : Nat)
    (hval : ∀ e ∈ E, 0 ≤ e.1 ∧ e.1 < (nRows : Int)) (hn : nRows ≤ 2 ^ 64)
    (j : Nat) (st : Bufs) (w : Nat) :
    E.foldl (condStep (Int.ofNat (((2 ^ 64 - 1) >>> 18) <<< 18)) (Int.ofNat (j <<< 18)) w) st
      = (E.filter (fun e => jobOf e = j)).foldl (procEntry w) st := by
  unfold condStep
  rw [foldl_ite_filter_prop]
  congr 1
  apply List.filter_congr
  intro e he
  obtain ⟨h0, hlt⟩ := hval e he
  have her : e.1 = (e.1.toNat : Int) := (Int.toNat_of_nonneg h0).symm
  have hlt' : e.1.toNat < 2 ^ 64 := by omega
  have hland : Int.land e.1 (Int.ofNat (((2 ^ 64 - 1) >>> 18) <<< 18))
      = Int.ofNat (e.1.toNat &&& (((2 ^ 64 - 1) >>> 18) <<< 18)) := by
    rw [her]
    rfl
  rw [hland]
  simp only [decide_eq_decide, jobOf]
  constructor
  · intro h
    exact (land_mask_cond 18 j hlt').mp (Int.ofNat.inj h)
  · intro h
    exact congrArg Int.ofNat ((land_mask_cond 18 j hlt').mpr h)

theorem range_foldl_buckets {α β : Type _} (n : Nat) (bucket : Nat → List α)
    (f : β → α → β) (st : β) :
    (List.range n).foldl (fun st j => (bucket j).foldl f st) st
      = (((List.range n).map bucket).flatten).foldl f st := by
  rw [List.foldl_flatten, List.foldl_map]

/-! ## Counting entries per row -/

theorem rowFilter_append (L1 L2 : List (Int × Int × Int)) (r : Nat) :
    rowFilter (L1 ++ L2) r = rowFilter L1 r ++ rowFilter L2 r :=
  List.filter_append _ _

theorem countRow_append (L1 L2 : List (Int × Int × Int)) (r : Nat) :
    countRow (L1 ++ L2) r = countRow L1 r + countRow L2 r := by
  simp [countRow, rowFilter_append]

theorem startOf_zero (L : List (Int × Int × Int)) : startOf L 0 = 0 := by
  simp [startOf]

theorem startOf_succ (L : List (Int × Int × Int)) (r : Nat) :
    startOf L (r + 1) = startOf L r + countRow L r :=
  Finset.sum_range_succ _ _

theorem startOf_mono (L : List (Int × Int × Int)) {r r' : Nat} (h : r ≤ r') :
    startOf L r ≤ startOf L r' :=
  Finset.sum_le_sum_of_subset (Finset.range_subset.mpr h)

theorem countRow_cons (e : Int × Int × Int) (L : List (Int × Int × Int)) (i : Nat) :
    countRow (e :: L) i = (if e.1 = (i : Int) then 1 else 0) + countRow L i := by
  simp only [countRow, rowFilter, List.filter_cons]
  by_cases hi : e.1 = (i : Int)
  · simp [hi]
    omega
  · simp [hi]

/-- Entries with valid rows are partitioned by row: the per-row counts over
all rows sum to the total number of entries. -/
theorem startOf_full (nRows : Nat) (L : List (Int × Int × Int))
    (hval : ∀ e ∈ L, 0 ≤ e.1 ∧ e.1 < (nRows : Int)) :
    startOf L nRows = L.length := by
  induction L with
  | nil => simp [startOf, countRow, rowFilter]
  | cons e L ih =>
    have hv := hval e (List.mem_cons_self _ _)
    have hvr : ∀ x ∈ L, 0 ≤ x.1 ∧ x.1 < (nRows : Int) :=
      fun x hx => hval x (List.mem_cons_of_mem _ hx)
    have he : e.1 = (e.1.toNat : Int) := (Int.toNat_of_nonneg hv.1).symm
    have hr0n : e.1.toNat < nRows := by omega
    unfold startOf
    calc Finset.sum (Finset.range nRows) (fun i => countRow (e :: L) i)
        = Finset.sum (Finset.range nRows)
            (fun i => (if e.1 = (i : Int) then 1 else 0) + countRow L i) :=
          Finset.sum_congr rfl (fun i _ => countRow_cons e L i)
      _ = Finset.sum (Finset.range nRows) (fun i => if e.1 = (i : Int) then 1 else 0)
            + Finset.sum (Finset.range nRows) (fun i => countRow L i) := Finset.sum_add_distrib
      _ = 1 + L.length := by
          have hpt : ∀ i ∈ Finset.range nRows,
              (if e.1 = (i : Int) then (1 : Nat) else 0) = (if i = e.1.toNat then 1 else 0) := by
            intro i _
            by_cases h : i = e.1.toNat
            · subst h
              simp [← he]
            · have hne : e.1 ≠ (i : Int) := by
                rw [he]
                intro hc
                exact h (by exact_mod_cast hc.symm)
              simp [hne, h]
          rw [Finset.sum_congr rfl hpt,
            Finset.sum_ite_eq' (Finset.range nRows) (e.1.toNat) (fun _ => 1),
            if_pos (Finset.mem_range.mpr hr0n)]
          congr 1
          exact ih hvr
      _ = (e :: L).length := by
          rw [List.length_cons]
          omega

/-- Bucketing the entries by job and concatenating the buckets, then
filtering one row, recovers exactly that row's entries in their original
order: every entry of row `r` is in bucket `r >>> 18` and no other. -/
theorem rowFilter_buckets (E : List (Int × Int × Int)) (nJobs : Nat) (r : Nat)
    (hlt : r >>> 18 < nJobs) :
    rowFilter (((List.range nJobs).map (fun j => E.filter (fun e => jobOf e = j))).flatten) r
      = rowFilter E r := by
  unfold rowFilter
  rw [List.filter_flatten, List.map_map]
  have hmap : ∀ j ∈ List.range nJobs,
      (List.filter (fun e => decide (e.1 = (r : Int))) ∘ fun j => E.filter (fun e => decide (jobOf e = j))) j
        = if j = r >>> 18 then List.filter (fun e => decide (e.1 = (r : Int))) E else [] := by
    intro j _
    simp only [Function.comp_apply]
    rw [List.filter_filter]
    by_cases hj : j = r >>> 18
    · subst hj
      rw [if_pos rfl]
      apply List.filter_congr
      intro e _
      by_cases hre : e.1 = (r : Int)
      · have hjr : jobOf e = r >>> 18 := by
          unfold jobOf
          rw [hre, Int.toNat_natCast]
        simp [hre, hjr]
      · simp [hre]
    · rw [if_neg hj, List.filter_eq_nil_iff]
      intro e _
      by_cases hre : e.1 = (r : Int)
      · have hjr : jobOf e = r >>> 18 := by
          unfold jobOf
          rw [hre, Int.toNat_natCast]
        simp [hre, hjr]
        exact fun h => hj h.symm
      · simp [hre]
  rw [List.map_congr_left hmap, flatten_ite_single, if_pos hlt]

/-! ## The scatter invariant -/

/-- Invariant of the sequential scatter: after processing a prefix `P` of
the (valid-row) entry list `L` starting from a state whose cursors are
`startOf L r + countRow P r`, processing the remaining entries `Q` yields
cursors `startOf L r + countRow L r` and, for every row `r` and every
`k < countRow L r`, position `startOf L r + k` of `indices`/`data` holds
the `k`-th column id / value among `L`'s row-`r` entries in order.  The
store casts of `procEntry` are assumed (and at the call site proved) to be
the identity on every value actually stored: column ids of entries of `L`
and cursor values up to `nnz`. -/
theorem scatter_inv (w nRows nnz : Nat) (L : List (Int × Int × Int))
    (hval : ∀ e ∈ L, 0 ≤ e.1 ∧ e.1 < (nRows : Int))
    (hfull : startOf L nRows = nnz)
    (hwcol : ∀ e ∈ L, signedWrap w e.2.1 = e.2.1)
    (hwptr : ∀ v : Nat, v ≤ nnz → signedWrap w ((v : Nat) : Int) = ((v : Nat) : Int)) :
    ∀ (Q P : List (Int × Int × Int)), P ++ Q = L →
    ∀ st : Bufs,
      st.indptr.length = nRows + 1 →
      st.data.length = nnz →
      st.indices.length = nnz →
      (∀ r, r ≤ nRows → st.indptr.getD r 0 = ((startOf L r + countRow P r : Nat) : Int)) →
      (∀ r, r < nRows → ∀ k, k < countRow P r →
          st.indices.getD (startOf L r + k) 0 = ((rowFilter P r).map (fun x => x.2.1)).getD k 0 ∧
          st.data.getD (startOf L r + k) 0 = ((rowFilter P r).map (fun x => x.2.2)).getD k 0) →
      ((Q.foldl (procEntry w) st).indptr.length = nRows + 1 ∧
       (Q.foldl (procEntry w) st).data.length = nnz ∧
       (Q.foldl (procEntry w) st).indices.length = nnz ∧
       (∀ r, r ≤ nRows → (Q.foldl (procEntry w) st).indptr.getD r 0
          = ((startOf L r + countRow L r : Nat) : Int)) ∧
       (∀ r, r < nRows → ∀ k, k < countRow L r →
          (Q.foldl (procEntry w) st).indices.getD (startOf L r + k) 0
              = ((rowFilter L r).map (fun x => x.2.1)).getD k 0 ∧
          (Q.foldl (procEntry w) st).data.getD (startOf L r + k) 0
              = ((rowFilter L r).map (fun x => x.2.2)).getD k 0)) := by
  intro Q
  induction Q with
  | nil =>
    intro P hPQ st h1 h2 h3 hcur hwr
    rw [List.append_nil] at hPQ
    subst hPQ
    exact ⟨h1, h2, h3, hcur, hwr⟩
  | cons e Q ih =>
    intro P hPQ st h1 h2 h3 hcur hwr
    rw [List.foldl_cons]
    have heL : e ∈ L := hPQ ▸ List.mem_append_right P (List.mem_cons_self e Q)
    obtain ⟨h0, hlt⟩ := hval e heL
    set r0 := e.1.toNat with hr0def
    have he : e.1 = (r0 : Int) := (Int.toNat_of_nonneg h0).symm
    have hr0 : r0 < nRows := by omega
    have hPle : ∀ i : Nat, countRow P i ≤ countRow L i := by
      intro i
      rw [← hPQ, countRow_append]
      omega
    have hcnt_lt : countRow P r0 < countRow L r0 := by
      have hsplit : countRow L r0 = countRow P r0 + countRow (e :: Q) r0 := by
        rw [← hPQ, countRow_append]
      rw [hsplit, countRow_cons, if_pos he]
      omega
    have hpos_lt : startOf L r0 + countRow P r0 < nnz := by
      have hstep : startOf L (r0 + 1) = startOf L r0 + countRow L r0 := startOf_succ L r0
      have hmono : startOf L (r0 + 1) ≤ startOf L nRows := startOf_mono L (by omega)
      omega
    have hri : pyIdx st.indptr.length e.1 = r0 := by
      unfold pyIdx
      rw [if_neg (by omega)]
    have hproc : procEntry w st e
        = { data := st.data.set (startOf L r0 + countRow P r0) e.2.2
            indices := st.indices.set (startOf L r0 + countRow P r0) e.2.1
            indptr := st.indptr.set r0 ((startOf L r0 + countRow P r0 + 1 : Nat) : Int) } := by
      simp only [procEntry]
      rw [hri, hcur r0 (le_of_lt hr0), pyIdx_natCast, pyIdx_natCast, hwcol e heL,
        show (((startOf L r0 + countRow P r0 : Nat) : Int) + 1)
            = ((startOf L r0 + countRow P r0 + 1 : Nat) : Int) by push_cast; ring,
        hwptr (startOf L r0 + countRow P r0 + 1) (by omega)]
    have hdata' : (procEntry w st e).data = st.data.set (startOf L r0 + countRow P r0) e.2.2 := by
      rw [hproc]
    have hind' : (procEntry w st e).indices
        = st.indices.set (startOf L r0 + countRow P r0) e.2.1 := by
      rw [hproc]
    have hiptr' : (procEntry w st e).indptr
        = st.indptr.set r0 ((startOf L r0 + countRow P r0 + 1 : Nat) : Int) := by
      rw [hproc]
    have hcntP' : ∀ i : Nat, countRow (P ++ [e]) i
        = countRow P i + (if e.1 = (i : Int) then 1 else 0) := by
      intro i
      rw [countRow_append, countRow_cons]
      have hnil : countRow ([] : List (Int × Int × Int)) i = 0 := by
        simp [countRow, rowFilter]
      omega
    have hrfP' : ∀ i : Nat, rowFilter (P ++ [e]) i
        = rowFilter P i ++ (if e.1 = (i : Int) then [e] else []) := by
      intro i
      rw [rowFilter_append]
      congr 1
      simp only [rowFilter, List.filter_cons, List.filter_nil]
      by_cases hi : e.1 = (i : Int)
      · simp [hi]
      · simp [hi]
    have hP' : (P ++ [e]) ++ Q = L := by
      rw [List.append_assoc]
      simpa using hPQ
    have h1' : (procEntry w st e).indptr.length = nRows + 1 := by
      rw [hiptr', List.length_set, h1]
    have h2' : (procEntry w st e).data.length = nnz := by
      rw [hdata', List.length_set, h2]
    have h3' : (procEntry w st e).indices.length = nnz := by
      rw [hind', List.length_set, h3]
    have hcur' : ∀ r, r ≤ nRows →
        (procEntry w st e).indptr.getD r 0
          = ((startOf L r + countRow (P ++ [e]) r : Nat) : Int) := by
      intro r hr
      rw [hiptr', getD_set]
      by_cases hrr : r0 = r
      · subst hrr
        rw [if_pos ⟨rfl, by rw [h1]; omega⟩, hcntP' r0, if_pos he]
        omega
      · have hne : e.1 ≠ (r : Int) := by
          rw [he]
          exact fun hc => hrr (by exact_mod_cast hc)
        rw [if_neg (fun hc => hrr hc.1), hcntP' r, if_neg hne, hcur r hr]
        omega
    have hwr' : ∀ r, r < nRows → ∀ k, k < countRow (P ++ [e]) r →
        (procEntry w st e).indices.getD (startOf L r + k) 0
            = ((rowFilter (P ++ [e]) r).map (fun x => x.2.1)).getD k 0 ∧
        (procEntry w st e).data.getD (startOf L r + k) 0
            = ((rowFilter (P ++ [e]) r).map (fun x => x.2.2)).getD k 0 := by
      intro r hr k hk
      have hlenP : ((rowFilter P r).map (fun x : Int × Int × Int => x.2.1)).length
          = countRow P r := by
        rw [List.length_map]
        rfl
      have hlenP2 : ((rowFilter P r).map (fun x : Int × Int × Int => x.2.2)).length
          = countRow P r := by
        rw [List.length_map]
        rfl
      by_cases hrr : r0 = r
      · subst hrr
        rw [hcntP' r0, if_pos he] at hk
        rw [hrfP' r0, if_pos he]
        by_cases hkc : k < countRow P r0
        · have hne : startOf L r0 + countRow P r0 ≠ startOf L r0 + k := by omega
          rw [hind', hdata', getD_set, if_neg (fun hc => hne hc.1), getD_set,
            if_neg (fun hc => hne hc.1), List.map_append, List.map_append,
            List.getD_append _ _ _ _ (by rw [hlenP]; exact hkc),
            List.getD_append _ _ _ _ (by rw [hlenP2]; exact hkc)]
          exact hwr r0 hr k hkc
        · have hkeq : k = countRow P r0 := by omega
          subst hkeq
          constructor
          · rw [hind', getD_set, if_pos ⟨rfl, by rw [h3]; exact hpos_lt⟩,
              List.map_append, List.getD_append_right _ _ _ _ (by rw [hlenP]), hlenP]
            simp
          · rw [hdata', getD_set, if_pos ⟨rfl, by rw [h2]; exact hpos_lt⟩,
              List.map_append, List.getD_append_right _ _ _ _ (by rw [hlenP2]), hlenP2]
            simp
      · have hne : e.1 ≠ (r : Int) := by
          rw [he]
          exact fun hc => hrr (by exact_mod_cast hc)
        rw [hcntP' r, if_neg hne] at hk
        have hdisj : startOf L r0 + countRow P r0 ≠ startOf L r + k := by
          rcases Nat.lt_or_ge r0 r with hlt' | hge
          · have hs1 : startOf L (r0 + 1) = startOf L r0 + countRow L r0 := startOf_succ L r0
            have hs2 : startOf L (r0 + 1) ≤ startOf L r := startOf_mono L (by omega)
            omega
          · have hrlt : r < r0 := by omega
            have hs1 : startOf L (r + 1) = startOf L r + countRow L r := startOf_succ L r
            have hs2 : startOf L (r + 1) ≤ startOf L r0 := startOf_mono L (by omega)
            have hkL : k < countRow L r := lt_of_lt_of_le hk (hPle r)
            omega
        rw [hrfP' r, if_neg hne, List.append_nil, hind', hdata', getD_set,
          if_neg (fun hc => hdisj hc.1), getD_set, if_neg (fun hc => hdisj hc.1)]
        exact hwr r hr k hk
    exact ih (P ++ [e]) hP' (procEntry w st e) h1' h2' h3' hcur' hwr' 

/-! ## The append phase -/

/-- The chunk that `append` stores for the input batch `c`. -/
def transChunk (obs var : List Int) (c : InChunk) : Chunk :=
  { rows := reindexAndCast obs c.1 (selectDtype (obs.length : Int))
    cols := reindexAndCast var c.2.1 (selectDtype (var.length : Int))
    data := c.2.2 }

theorem selectDtype_small {n : Nat} (h : n ≤ 2 ^ 31 - 1) : selectDtype (n : Int) = 32 := by
  unfold selectDtype
  rw [if_neg]
  have h31 : (2 : Nat) ^ 31 - 1 = 2147483647 := by norm_num
  have hn : (n : Int) ≤ 2147483647 := by exact_mod_cast h31 ▸ h
  omega

theorem signedWrap_lookupPos (domain : List Int) (id : Int)
    (hdom : domain.length ≤ 2 ^ 31 - 1) :
    signedWrap 32 (lookupPos domain id) = lookupPos domain id := by
  have h31 : (2 : Nat) ^ 31 - 1 = 2147483647 := by norm_num
  have hdom' : (domain.length : Int) ≤ 2147483647 := by exact_mod_cast h31 ▸ hdom
  have hb : (2 : Int) ^ (32 - 1) = 2147483648 := by norm_num
  apply signedWrap_eq_self 32 _ (by norm_num)
  · by_cases hmem : id ∈ domain
    · have h0 := (lookupPos_mem hmem).1
      omega
    · rw [lookupPos_not_mem hmem]
      rw [hb]
      omega
  · by_cases hmem : id ∈ domain
    · have h2 := (lookupPos_mem hmem).2
      rw [hb]
      omega
    · rw [lookupPos_not_mem hmem, hb]
      omega

theorem transChunk_lengths (obs var : List Int) (c : InChunk)
    (h1 : c.1.length = c.2.2.length) (h2 : c.2.1.length = c.2.2.length) :
    (transChunk obs var c).rows.length = (transChunk obs var c).data.length ∧
    (transChunk obs var c).cols.length = (transChunk obs var c).data.length := by
  simp [transChunk, reindexAndCast, getIndexer, h1, h2]

theorem transChunk_rows_small (obs var : List Int) (c : InChunk)
    (hobs : obs.length ≤ 2 ^ 31 - 1) :
    (transChunk obs var c).rows = c.1.map (lookupPos obs) := by
  show (c.1.map (lookupPos obs)).map (signedWrap (selectDtype (obs.length : Int))) = _
  rw [selectDtype_small hobs, List.map_map]
  exact List.map_congr_left (fun id _ => signedWrap_lookupPos obs id hobs)

theorem transChunk_cols_small (obs var : List Int) (c : InChunk)
    (hvar : var.length ≤ 2 ^ 31 - 1) :
    (transChunk obs var c).cols = c.2.1.map (lookupPos var) := by
  show (c.2.1.map (lookupPos var)).map (signedWrap (selectDtype (var.length : Int))) = _
  rw [selectDtype_small hvar, List.map_map]
  exact List.map_congr_left (fun id _ => signedWrap_lookupPos var id hvar)

theorem transChunk_rows_valid (obs var : List Int) (c : InChunk)
    (hobs : obs.length ≤ 2 ^ 31 - 1) (hmem : ∀ id ∈ c.1, id ∈ obs) :
    ∀ x ∈ (transChunk obs var c).rows, 0 ≤ x ∧ x < (obs.length : Int) := by
  rw [transChunk_rows_small obs var c hobs]
  intro x hx
  obtain ⟨id, hid, rfl⟩ := List.mem_map.mp hx
  exact lookupPos_mem (hmem id hid)

theorem signedWrap32_natCast {v : Nat} (h : v ≤ 2 ^ 31 - 1) :
    signedWrap 32 ((v : Nat) : Int) = ((v : Nat) : Int) := by
  have h31 : (2 : Nat) ^ 31 - 1 = 2147483647 := by norm_num
  have hv : ((v : Nat) : Int) ≤ 2147483647 := by exact_mod_cast h31 ▸ h
  have hb : (2 : Int) ^ (32 - 1) = 2147483648 := by norm_num
  apply signedWrap_eq_self 32 _ (by norm_num)
  · rw [hb]
    omega
  · rw [hb]
    omega

theorem accumRowLength_cons (rl : List Int) (r : Int) (rs : List Int) (w : Nat) :
    accumRowLength rl (r :: rs) w
      = accumRowLength (rl.set (pyIdx rl.length r)
          (signedWrap w (rl.getD (pyIdx rl.length r) 0 + 1))) rs w :=
  rfl

theorem accumRowLength_length (rl : List Int) (rowInd : List Int) (w : Nat) :
    (accumRowLength rl rowInd w).length = rl.length := by
  induction rowInd generalizing rl with
  | nil => rfl
  | cons r rs ih =>
    rw [accumRowLength_cons, ih, List.length_set]

/-- As long as every count stays below the wrap threshold of the
histogram's dtype, the wrapped increments compute the exact per-row counts:
the histogram remains the integer image of a natural-number histogram. -/
theorem accumRowLength_map_cast (w capN : Nat)
    (hid : ∀ v : Nat, v ≤ capN → signedWrap w ((v : Nat) : Int) = ((v : Nat) : Int)) :
    ∀ (rowInd : List Int) (base : List Nat),
    (∀ x ∈ rowInd, 0 ≤ x ∧ x < (base.length : Int)) →
    (∀ i, i < base.length →
        base.getD i 0 + (rowInd.filter (fun x => x = (i : Int))).length ≤ capN) →
    ∃ bnew : List Nat,
      accumRowLength (base.map (fun n : Nat => (n : Int))) rowInd w
          = bnew.map (fun n : Nat => (n : Int)) ∧
      bnew.length = base.length ∧
      (∀ i, i < base.length →
        bnew.getD i 0 = base.getD i 0 + (rowInd.filter (fun x => x = (i : Int))).length) := by
  intro rowInd
  induction rowInd with
  | nil =>
    intro base _ _
    refine ⟨base, rfl, rfl, ?_⟩
    intro i _
    simp
  | cons r rs ih =>
    intro base hval hcap
    obtain ⟨h0, hlt⟩ := hval r (List.mem_cons_self _ _)
    have hlenm : (base.map (fun n : Nat => (n : Int))).length = base.length :=
      List.length_map _ _
    have hj : r.toNat < base.length := by omega
    have hpy : pyIdx (base.map (fun n : Nat => (n : Int))).length r = r.toNat := by
      unfold pyIdx
      rw [if_neg (by omega)]
    have hgd : (base.map (fun n : Nat => (n : Int))).getD r.toNat 0
        = ((base.getD r.toNat 0 : Nat) : Int) :=
      map_getD _ _ _ 0 0 hj
    have hreq : r = ((r.toNat : Nat) : Int) := by omega
    have hcnt1 : 1 ≤ ((r :: rs).filter (fun x => x = ((r.toNat : Nat) : Int))).length := by
      rw [List.filter_cons, if_pos (decide_eq_true hreq)]
      simp
    have hble : base.getD r.toNat 0 + 1 ≤ capN := by
      have := hcap r.toNat hj
      omega
    have hwrap : signedWrap w ((base.map (fun n : Nat => (n : Int))).getD r.toNat 0 + 1)
        = ((base.getD r.toNat 0 + 1 : Nat) : Int) := by
      rw [hgd,
        show ((base.getD r.toNat 0 : Nat) : Int) + 1
            = ((base.getD r.toNat 0 + 1 : Nat) : Int) by push_cast; ring]
      exact hid _ hble
    have hsetmap : (base.map (fun n : Nat => (n : Int))).set r.toNat
          ((base.getD r.toNat 0 + 1 : Nat) : Int)
        = (base.set r.toNat (base.getD r.toNat 0 + 1)).map (fun n : Nat => (n : Int)) := by
      exact List.map_set.symm
    have hval' : ∀ x ∈ rs,
        0 ≤ x ∧ x < ((base.set r.toNat (base.getD r.toNat 0 + 1)).length : Int) := by
      rw [List.length_set]
      exact fun x hx => hval x (List.mem_cons_of_mem _ hx)
    have hcap' : ∀ i, i < (base.set r.toNat (base.getD r.toNat 0 + 1)).length →
        (base.set r.toNat (base.getD r.toNat 0 + 1)).getD i 0
          + (rs.filter (fun x => x = (i : Int))).length ≤ capN := by
      intro i hi
      rw [List.length_set] at hi
      rw [getD_set]
      have hfc : ((r :: rs).filter (fun x => x = (i : Int))).length
          = (if r = (i : Int) then 1 else 0) + (rs.filter (fun x => x = (i : Int))).length := by
        rw [List.filter_cons]
        by_cases hri : r = (i : Int)
        · rw [if_pos (decide_eq_true hri), if_pos hri]
          simp
          omega
        · rw [if_neg (by simpa using hri), if_neg hri]
          simp
      by_cases hri : r.toNat = i
      · subst hri
        rw [if_pos ⟨rfl, hj⟩]
        have := hcap r.toNat hj
        rw [hfc, if_pos hreq] at this
        omega
      · have hner : ¬ (r = (i : Int)) := by omega
        rw [if_neg (fun hc => hri hc.1)]
        have := hcap i hi
        rw [hfc, if_neg hner] at this
        omega
    rw [accumRowLength_cons, hpy, hwrap, hsetmap]
    obtain ⟨bnew, hb1, hb2, hb3⟩ := ih (base.set r.toNat (base.getD r.toNat 0 + 1)) hval' hcap'
    refine ⟨bnew, hb1, by rw [hb2, List.length_set], ?_⟩
    intro i hi
    rw [hb3 i (by rw [List.length_set]; exact hi), getD_set, List.filter_cons]
    by_cases hri : r.toNat = i
    · subst hri
      rw [if_pos ⟨rfl, hj⟩, if_pos (decide_eq_true hreq)]
      simp only [List.length_cons]
      omega
    · have hner : ¬ (r = (i : Int)) := by omega
      rw [if_neg (fun hc => hri hc.1), if_neg (by simpa using hner)]

theorem totalNnz_append (input : List InChunk) (c : InChunk) :
    totalNnz (input ++ [c]) = totalNnz input + c.2.2.length := by
  unfold totalNnz
  rw [List.map_append, List.sum_append]
  simp

/-! ## Structure of a whole accumulation run -/

theorem runAcc_append (obs var : List Int) (input : List InChunk) (c : InChunk) :
    runAcc obs var (input ++ [c]) = (runAcc obs var input).append c.1 c.2.1 c.2.2 := by
  unfold runAcc
  rw [List.foldl_append]
  rfl

theorem runAcc_shape (obs var : List Int) (input : List InChunk) :
    (runAcc obs var input).shape = (obs.length, var.length) := by
  induction input using List.reverseRecOn with
  | nil => rfl
  | append_singleton l c ih => rw [runAcc_append]; exact ih

theorem runAcc_obsJoinids (obs var : List Int) (input : List InChunk) :
    (runAcc obs var input).obsJoinids = obs := by
  induction input using List.reverseRecOn with
  | nil => rfl
  | append_singleton l c ih => rw [runAcc_append]; exact ih

theorem runAcc_varJoinids (obs var : List Int) (input : List InChunk) :
    (runAcc obs var input).varJoinids = var := by
  induction input using List.reverseRecOn with
  | nil => rfl
  | append_singleton l c ih => rw [runAcc_append]; exact ih

theorem runAcc_cooChunks (obs var : List Int) (input : List InChunk) :
    (runAcc obs var input).cooChunks = input.map (transChunk obs var) := by
  induction input using List.reverseRecOn with
  | nil => rfl
  | append_singleton l c ih =>
    rw [runAcc_append, List.map_append]
    show (runAcc obs var l).cooChunks ++ [_] = _
    rw [ih]
    congr 2
    simp [transChunk, runAcc_obsJoinids, runAcc_varJoinids, runAcc_shape]

theorem runAcc_rowLength_append (obs var : List Int) (input : List InChunk) (c : InChunk) :
    (runAcc obs var (input ++ [c])).rowLength
      = accumRowLength (runAcc obs var input).rowLength ((transChunk obs var c).rows)
          (selectDtype ((var.length : Nat) : Int)) := by
  rw [runAcc_append]
  show accumRowLength (runAcc obs var input).rowLength
      (reindexAndCast (runAcc obs var input).obsJoinids c.1
        (selectDtype ((runAcc obs var input).shape.1 : Int)))
      (selectDtype ((runAcc obs var input).shape.2 : Int)) = _
  rw [runAcc_obsJoinids, runAcc_shape]
  rfl

theorem runAcc_rowLength_length (obs var : List Int) (input : List InChunk) :
    (runAcc obs var input).rowLength.length = obs.length := by
  induction input using List.reverseRecOn with
  | nil => simp [runAcc, mkAcc]
  | append_singleton l c ih => rw [runAcc_rowLength_append, accumRowLength_length, ih]

theorem length_filter_zip_left {α β : Type _} (p : α → Bool) :
    ∀ (l1 : List α) (l2 : List β), l1.length = l2.length →
      ((l1.zip l2).filter (fun e => p e.1)).length = (l1.filter p).length := by
  intro l1
  induction l1 with
  | nil => intro l2 _; rfl
  | cons a l1 ih =>
    intro l2 h
    cases l2 with
    | nil => simp at h
    | cons b l2 =>
      simp only [List.zip_cons_cons, List.filter_cons]
      by_cases hp : p a
      · simp only [hp, if_pos]
        simp [ih l2 (by simpa using h)]
      · simp only [hp]
        simp [ih l2 (by simpa using h)]

theorem countRow_chunkEntries (ch : Chunk) (hr : ch.rows.length = ch.data.length)
    (hc : ch.cols.length = ch.data.length) (i : Nat) :
    countRow (chunkEntries ch) i = (ch.rows.filter (fun x => x = (i : Int))).length := by
  show ((ch.rows.zip (ch.cols.zip ch.data)).filter
      (fun e => decide (e.1 = (i : Int)))).length = _
  exact length_filter_zip_left (fun x => decide (x = (i : Int))) ch.rows (ch.cols.zip ch.data)
    (by rw [List.length_zip]; omega)

theorem accEntries_append (obs var : List Int) (input : List InChunk) (c : InChunk) :
    accEntries (runAcc obs var (input ++ [c]))
      = accEntries (runAcc obs var input) ++ chunkEntries (transChunk obs var c) := by
  unfold accEntries
  rw [runAcc_cooChunks, runAcc_cooChunks, List.map_append, List.map_append, List.flatten_append]
  simp

/-- After a whole run the histogram holds, for every row position, the
number of appended entries re-indexed to that row. -/
theorem accEntries_valid (obs var : List Int) (input : List InChunk)
    (hobs : obs.length ≤ 2 ^ 31 - 1)
    (hrowmem : ∀ c ∈ input, ∀ id ∈ c.1, id ∈ obs) :
    ∀ e ∈ accEntries (runAcc obs var input), 0 ≤ e.1 ∧ e.1 < (obs.length : Int) := by
  intro e he
  unfold accEntries at he
  rw [runAcc_cooChunks, List.map_map] at he
  obtain ⟨x, hx, hex⟩ := List.mem_flatten.mp he
  obtain ⟨c, hc, rfl⟩ := List.mem_map.mp hx
  simp only [Function.comp_apply] at hex
  unfold chunkEntries at hex
  obtain ⟨a, bc⟩ := e
  exact transChunk_rows_valid obs var c hobs (hrowmem c hc) a (List.of_mem_zip hex).1

theorem chunkEntries_length (ch : Chunk) (hr : ch.rows.length = ch.data.length)
    (hc : ch.cols.length = ch.data.length) :
    (chunkEntries ch).length = ch.data.length := by
  simp only [chunkEntries, List.length_zip]
  omega

theorem accEntries_length (obs var : List Int) (input : List InChunk)
    (hlen : ∀ c ∈ input, c.1.length = c.2.2.length ∧ c.2.1.length = c.2.2.length) :
    (accEntries (runAcc obs var input)).length = totalNnz input := by
  unfold accEntries totalNnz
  rw [runAcc_cooChunks, List.map_map, List.length_flatten, List.map_map]
  apply congrArg List.sum
  apply List.map_congr_left
  intro c hc
  have h := hlen c hc
  simp only [Function.comp_apply]
  rw [chunkEntries_length _ (transChunk_lengths obs var c h.1 h.2).1
    (transChunk_lengths obs var c h.1 h.2).2]
  rfl

/-- Under the bounded regime — every value the histogram's int32 dtype must
hold stays below the wrap threshold — a whole run's wrapped histogram is
the integer image of the exact per-row counts of the appended entries. -/
theorem runAcc_rowLength_base (obs var : List Int) (input : List InChunk)
    (hlen : ∀ c ∈ input, c.1.length = c.2.2.length ∧ c.2.1.length = c.2.2.length)
    (hrowmem : ∀ c ∈ input, ∀ id ∈ c.1, id ∈ obs)
    (hobs : obs.length ≤ 2 ^ 31 - 1) (hvar : var.length ≤ 2 ^ 31 - 1)
    (hcap : totalNnz input ≤ 2 ^ 31 - 1) :
    ∃ base : List Nat,
      (runAcc obs var input).rowLength = base.map (fun n : Nat => (n : Int)) ∧
      base.length = obs.length ∧
      (∀ i, i < obs.length →
        base.getD i 0 = countRow (accEntries (runAcc obs var input)) i) := by
  induction input using List.reverseRecOn with
  | nil =>
    refine ⟨List.replicate obs.length 0, ?_, List.length_replicate _ _, ?_⟩
    · show List.replicate obs.length (0 : Int) = _
      simp [List.map_replicate]
    · intro i hi
      have h1 : (List.replicate obs.length (0 : Nat)).getD i 0 = 0 := by
        rw [List.getD_eq_getElem _ _ (by simpa using hi), List.getElem_replicate]
      rw [h1]
      simp [accEntries, runAcc, mkAcc, countRow, rowFilter]
  | append_singleton l c ih =>
    have hlenl : ∀ x ∈ l, x.1.length = x.2.2.length ∧ x.2.1.length = x.2.2.length :=
      fun x hx => hlen x (List.mem_append_left _ hx)
    have hrowl : ∀ x ∈ l, ∀ id ∈ x.1, id ∈ obs :=
      fun x hx => hrowmem x (List.mem_append_left _ hx)
    have hlc := hlen c (List.mem_append_right _ (List.mem_cons_self _ _))
    have hrc := hrowmem c (List.mem_append_right _ (List.mem_cons_self _ _))
    have hcapl : totalNnz l ≤ 2 ^ 31 - 1 := by
      have := totalNnz_append l c
      omega
    obtain ⟨base, hb, hblen, hbcount⟩ := ih hlenl hrowl hcapl
    rw [runAcc_rowLength_append, selectDtype_small hvar, hb]
    have hval : ∀ x ∈ (transChunk obs var c).rows, 0 ≤ x ∧ x < ((base.length : Nat) : Int) := by
      rw [hblen]
      exact transChunk_rows_valid obs var c hobs hrc
    have hEafter := accEntries_append obs var l c
    have hchl := transChunk_lengths obs var c hlc.1 hlc.2
    have hcap2 : ∀ i, i < base.length →
        base.getD i 0 + ((transChunk obs var c).rows.filter (fun x => x = (i : Int))).length
          ≤ 2 ^ 31 - 1 := by
      intro i hi
      have hc1 : ((transChunk obs var c).rows.filter (fun x => x = (i : Int))).length
          = countRow (chunkEntries (transChunk obs var c)) i :=
        (countRow_chunkEntries _ hchl.1 hchl.2 i).symm
      have h1 : countRow (accEntries (runAcc obs var l)) i
          + countRow (chunkEntries (transChunk obs var c)) i
          = countRow (accEntries (runAcc obs var (l ++ [c]))) i := by
        rw [hEafter, countRow_append]
      have h2 : countRow (accEntries (runAcc obs var (l ++ [c]))) i
          ≤ (accEntries (runAcc obs var (l ++ [c]))).length :=
        List.length_filter_le _ _
      have h3 : (accEntries (runAcc obs var (l ++ [c]))).length = totalNnz (l ++ [c]) :=
        accEntries_length obs var (l ++ [c]) hlen
      have h4 := hbcount i (by omega)
      omega
    obtain ⟨bnew, h1, h2, h3⟩ := accumRowLength_map_cast 32 (2 ^ 31 - 1)
      (fun v hv => signedWrap32_natCast hv) ((transChunk obs var c).rows) base hval hcap2
    refine ⟨bnew, h1, by rw [h2, hblen], ?_⟩
    intro i hi
    rw [h3 i (by omega), hbcount i hi, hEafter, countRow_append,
      countRow_chunkEntries _ hchl.1 hchl.2 i]

/-- Pointwise form of `runAcc_rowLength_base`. -/
theorem runAcc_rowLength_cast (obs var : List Int) (input : List InChunk)
    (hlen : ∀ c ∈ input, c.1.length = c.2.2.length ∧ c.2.1.length = c.2.2.length)
    (hrowmem : ∀ c ∈ input, ∀ id ∈ c.1, id ∈ obs)
    (hobs : obs.length ≤ 2 ^ 31 - 1) (hvar : var.length ≤ 2 ^ 31 - 1)
    (hcap : totalNnz input ≤ 2 ^ 31 - 1)
    (i : Nat) (hi : i < obs.length) :
    (runAcc obs var input).rowLength.getD i 0
      = ((countRow (accEntries (runAcc obs var input)) i : Nat) : Int) := by
  obtain ⟨base, hb, hblen, hbcount⟩ :=
    runAcc_rowLength_base obs var input hlen hrowmem hobs hvar hcap
  rw [hb, map_getD _ _ _ 0 0 (by rw [hblen]; exact hi), hbcount i hi]

theorem finalize_nnz_eq (obs var : List Int) (input : List InChunk) :
    ((runAcc obs var input).cooChunks.map (fun ch => ch.data.length)).sum = totalNnz input := by
  rw [runAcc_cooChunks, List.map_map]
  rfl

/-- `finalize` with at least one entry: prefix-sum, scatter jobs, unshift. -/
theorem finalize_pos_eq (a : Acc)
    (h : (a.cooChunks.map (fun ch => ch.data.length)).sum ≠ 0) :
    a.finalize
      = { data := (((List.range ((a.shape.1 >>> 18) + 1)).foldl
              (fun st job => copyChunklistRange a.cooChunks st 18 job
                (selectDtype (((a.cooChunks.map (fun ch => ch.data.length)).sum : Nat) : Int)))
              { data := List.replicate ((a.cooChunks.map (fun ch => ch.data.length)).sum) 0
                indices := List.replicate ((a.cooChunks.map (fun ch => ch.data.length)).sum) 0
                indptr := 0 :: (cumsum a.rowLength).map
                  (signedWrap (selectDtype
                    (((a.cooChunks.map (fun ch => ch.data.length)).sum : Nat) : Int))) })).data
          indptr := finalizeIndptr (((List.range ((a.shape.1 >>> 18) + 1)).foldl
              (fun st job => copyChunklistRange a.cooChunks st 18 job
                (selectDtype (((a.cooChunks.map (fun ch => ch.data.length)).sum : Nat) : Int)))
              { data := List.replicate ((a.cooChunks.map (fun ch => ch.data.length)).sum) 0
                indices := List.replicate ((a.cooChunks.map (fun ch => ch.data.length)).sum) 0
                indptr := 0 :: (cumsum a.rowLength).map
                  (signedWrap (selectDtype
                    (((a.cooChunks.map (fun ch => ch.data.length)).sum : Nat) : Int))) })).indptr
          indices := (((List.range ((a.shape.1 >>> 18) + 1)).foldl
              (fun st job => copyChunklistRange a.cooChunks st 18 job
                (selectDtype (((a.cooChunks.map (fun ch => ch.data.length)).sum : Nat) : Int)))
              { data := List.replicate ((a.cooChunks.map (fun ch => ch.data.length)).sum) 0
                indices := List.replicate ((a.cooChunks.map (fun ch => ch.data.length)).sum) 0
                indptr := 0 :: (cumsum a.rowLength).map
                  (signedWrap (selectDtype
                    (((a.cooChunks.map (fun ch => ch.data.length)).sum : Nat) : Int))) })).indices
          shape := a.shape } := by
  simp only [Acc.finalize]
  rw [if_neg h]

/-! ## The master characterization of `finalize` -/

/-- For a whole run with at least one entry (all row join-ids inside the
obs domain, chunk columns of equal length, axis sizes within the 32-bit
regime), `finalize` produces: the requested shape; an `indptr` of length
`n_rows + 1` whose entries are the exclusive prefix sums of the per-row
entry counts; `data`/`indices` of length `nnz`; and, for every row `r`,
a row slice holding exactly the `(col, value)` pairs of the appended
entries re-indexed to row `r`, in append order. -/
theorem accEntries_cols_wrap (obs var : List Int) (input : List InChunk)
    (hvar : var.length ≤ 2 ^ 31 - 1) :
    ∀ e ∈ accEntries (runAcc obs var input), signedWrap 32 e.2.1 = e.2.1 := by
  intro e he
  unfold accEntries at he
  rw [runAcc_cooChunks, List.map_map] at he
  obtain ⟨x, hx, hex⟩ := List.mem_flatten.mp he
  obtain ⟨c, hc, rfl⟩ := List.mem_map.mp hx
  simp only [Function.comp_apply] at hex
  unfold chunkEntries at hex
  obtain ⟨a, b, d⟩ := e
  have hbd : (b, d) ∈ (transChunk obs var c).cols.zip (transChunk obs var c).data :=
    (List.of_mem_zip hex).2
  have hb : b ∈ (transChunk obs var c).cols := (List.of_mem_zip hbd).1
  rw [transChunk_cols_small obs var c hvar] at hb
  obtain ⟨id, _, rfl⟩ := List.mem_map.mp hb
  exact signedWrap_lookupPos var id hvar

/-- For a whole run with at least one entry — all row join-ids inside the
obs domain, chunk columns of equal length, axis sizes and total entry
count within the 32-bit regime, where every store cast of the source is
the identity — `finalize` produces: the requested shape; an `indptr` of
length `n_rows + 1` whose entries are the exclusive prefix sums of the
per-row entry counts; `data`/`indices` of length `nnz`; and, for every
row `r`, a row slice holding exactly the `(col, value)` pairs of the
appended entries re-indexed to row `r`, in append order. -/
theorem finalize_spec (obs var : List Int) (input : List InChunk)
    (hlen : ∀ c ∈ input, c.1.length = c.2.2.length ∧ c.2.1.length = c.2.2.length)
    (hrow : ∀ c ∈ input, ∀ id ∈ c.1, id ∈ obs)
    (hobs : obs.length ≤ 2 ^ 31 - 1) (hvar : var.length ≤ 2 ^ 31 - 1)
    (hcap : totalNnz input ≤ 2 ^ 31 - 1)
    (hnnz : 0 < totalNnz input) :
    (runAcc obs var input).finalize.shape = (obs.length, var.length) ∧
    (runAcc obs var input).finalize.indptr.length = obs.length + 1 ∧
    (runAcc obs var input).finalize.data.length = totalNnz input ∧
    (runAcc obs var input).finalize.indices.length = totalNnz input ∧
    (∀ r, r ≤ obs.length →
      (runAcc obs var input).finalize.indptr.getD r 0
        = ((startOf (accEntries (runAcc obs var input)) r : Nat) : Int)) ∧
    (∀ r, r < obs.length →
      rowSlicePairs ((runAcc obs var input).finalize) r
        = (rowFilter (accEntries (runAcc obs var input)) r).map (fun e => (e.2.1, e.2.2))) := by
  have hchunklen : ∀ ch ∈ (runAcc obs var input).cooChunks,
      ch.rows.length = ch.data.length ∧ ch.cols.length = ch.data.length := by
    rw [runAcc_cooChunks]
    intro ch hch
    obtain ⟨c, hc, rfl⟩ := List.mem_map.mp hch
    exact transChunk_lengths obs var c (hlen c hc).1 (hlen c hc).2
  have hnnzeq := finalize_nnz_eq obs var input
  have hne : ((runAcc obs var input).cooChunks.map (fun ch => ch.data.length)).sum ≠ 0 := by
    omega
  have hEval := accEntries_valid obs var input hobs hrow
  have hElen : (accEntries (runAcc obs var input)).length = totalNnz input :=
    accEntries_length obs var input hlen
  have hhlen := runAcc_rowLength_length obs var input
  have hsh := runAcc_shape obs var input
  have hsh1 : (runAcc obs var input).shape.1 = obs.length := by rw [hsh]
  have hw32 : selectDtype (((totalNnz input : Nat) : Int)) = 32 := selectDtype_small hcap
  have hfin := finalize_pos_eq (runAcc obs var input) hne
  rw [hnnzeq, hsh1, hw32] at hfin
  have hmono18 : ∀ i : Nat, i < obs.length → i >>> 18 < (obs.length >>> 18) + 1 := by
    intro i hi
    have hdd : i >>> 18 ≤ obs.length >>> 18 := by
      simp only [Nat.shiftRight_eq_div_pow]
      exact Nat.div_le_div_right (le_of_lt hi)
    omega
  have h64 : obs.length ≤ 2 ^ 64 := le_trans hobs (by norm_num)
  have hscatter : ∀ st : Bufs,
      (List.range ((obs.length >>> 18) + 1)).foldl
          (fun st job => copyChunklistRange (runAcc obs var input).cooChunks st 18 job 32) st
        = (((List.range ((obs.length >>> 18) + 1)).map
              (fun j => (accEntries (runAcc obs var input)).filter
                (fun e => jobOf e = j))).flatten).foldl (procEntry 32) st := by
    intro st
    have hjob : ∀ (st : Bufs), ∀ job ∈ List.range ((obs.length >>> 18) + 1),
        copyChunklistRange (runAcc obs var input).cooChunks st 18 job 32
          = ((accEntries (runAcc obs var input)).filter
              (fun e => jobOf e = job)).foldl (procEntry 32) st := by
      intro st job _
      rw [copyChunklistRange_eq _ hchunklen st 18 job 32]
      exact foldl_condStep_eq_bucket (accEntries (runAcc obs var input)) obs.length
        hEval h64 job st 32
    rw [foldl_congr_mem _ hjob st, range_foldl_buckets]
  rw [hscatter] at hfin
  have hLpsub : ∀ e ∈ (((List.range ((obs.length >>> 18) + 1)).map
        (fun j => (accEntries (runAcc obs var input)).filter
          (fun e => jobOf e = j))).flatten),
      e ∈ accEntries (runAcc obs var input) := by
    intro e he
    obtain ⟨x, hx, hex⟩ := List.mem_flatten.mp he
    obtain ⟨j, _, rfl⟩ := List.mem_map.mp hx
    exact (List.mem_filter.mp hex).1
  have hLpval : ∀ e ∈ (((List.range ((obs.length >>> 18) + 1)).map
        (fun j => (accEntries (runAcc obs var input)).filter
          (fun e => jobOf e = j))).flatten),
      0 ≤ e.1 ∧ e.1 < (obs.length : Int) := fun e he => hEval e (hLpsub e he)
  have hLpcol : ∀ e ∈ (((List.range ((obs.length >>> 18) + 1)).map
        (fun j => (accEntries (runAcc obs var input)).filter
          (fun e => jobOf e = j))).flatten),
      signedWrap 32 e.2.1 = e.2.1 :=
    fun e he => accEntries_cols_wrap obs var input hvar e (hLpsub e he)
  have hwptr32 : ∀ v : Nat, v ≤ totalNnz input →
      signedWrap 32 ((v : Nat) : Int) = ((v : Nat) : Int) :=
    fun v hv => signedWrap32_natCast (by omega)
  have hRF : ∀ i, i < obs.length →
      rowFilter (((List.range ((obs.length >>> 18) + 1)).map
        (fun j => (accEntries (runAcc obs var input)).filter
          (fun e => jobOf e = j))).flatten) i
        = rowFilter (accEntries (runAcc obs var input)) i := by
    intro i hi
    exact rowFilter_buckets (accEntries (runAcc obs var input)) _ i (hmono18 i hi)
  have hCR : ∀ i, i < obs.length →
      countRow (((List.range ((obs.length >>> 18) + 1)).map
        (fun j => (accEntries (runAcc obs var input)).filter
          (fun e => jobOf e = j))).flatten) i
        = countRow (accEntries (runAcc obs var input)) i := by
    intro i hi
    unfold countRow
    rw [hRF i hi]
  have hSO : ∀ r, r ≤ obs.length →
      startOf (((List.range ((obs.length >>> 18) + 1)).map
        (fun j => (accEntries (runAcc obs var input)).filter
          (fun e => jobOf e = j))).flatten) r
        = startOf (accEntries (runAcc obs var input)) r := by
    intro r hr
    unfold startOf
    exact Finset.sum_congr rfl
      (fun i hi => hCR i (lt_of_lt_of_le (Finset.mem_range.mp hi) hr))
  have hfullE : startOf (accEntries (runAcc obs var input)) obs.length = totalNnz input := by
    rw [startOf_full obs.length _ hEval, hElen]
  have hfullLp : startOf (((List.range ((obs.length >>> 18) + 1)).map
        (fun j => (accEntries (runAcc obs var input)).filter
          (fun e => jobOf e = j))).flatten) obs.length = totalNnz input := by
    rw [hSO _ le_rfl, hfullE]
  have hcnt0 : ∀ r : Nat, countRow ([] : List (Int × Int × Int)) r = 0 := by
    intro r
    simp [countRow, rowFilter]
  have hcur0 : ∀ r, r ≤ obs.length →
      (({ data := List.replicate (totalNnz input) 0
          indices := List.replicate (totalNnz input) 0
          indptr := 0 :: (cumsum (runAcc obs var input).rowLength).map
            (signedWrap 32) } : Bufs)).indptr.getD r 0
        = ((startOf (((List.range ((obs.length >>> 18) + 1)).map
            (fun j => (accEntries (runAcc obs var input)).filter
              (fun e => jobOf e = j))).flatten) r
            + countRow ([] : List (Int × Int × Int)) r : Nat) : Int) := by
    intro r hr
    rw [hcnt0 r, hSO r hr, Nat.add_zero]
    cases r with
    | zero =>
      rw [startOf_zero]
      rfl
    | succ s =>
      have hs : s < obs.length := by omega
      have hslen : s < (cumsum (runAcc obs var input).rowLength).length := by
        rw [length_cumsum, hhlen]
        exact hs
      show ((0 : Int) :: (cumsum (runAcc obs var input).rowLength).map
          (signedWrap 32)).getD (s + 1) 0 = _
      rw [List.getD_cons_succ, map_getD (signedWrap 32) _ s 0 0 hslen,
        cumsum_getD _ s (by rw [hhlen]; exact hs),
        Finset.sum_congr rfl (fun i hi =>
          runAcc_rowLength_cast obs var input hlen hrow hobs hvar hcap i
            (lt_of_lt_of_le (Finset.mem_range.mp hi) hs)),
        ← Nat.cast_sum]
      have hsum : Finset.sum (Finset.range (s + 1))
          (fun i => countRow (accEntries (runAcc obs var input)) i)
          = startOf (accEntries (runAcc obs var input)) (s + 1) := rfl
      rw [hsum]
      have hbd : startOf (accEntries (runAcc obs var input)) (s + 1) ≤ totalNnz input := by
        rw [← hfullE]
        exact startOf_mono _ hs
      rw [signedWrap32_natCast (by omega)]
  have hinv := scatter_inv 32 obs.length (totalNnz input)
    (((List.range ((obs.length >>> 18) + 1)).map
        (fun j => (accEntries (runAcc obs var input)).filter
          (fun e => jobOf e = j))).flatten)
    hLpval hfullLp hLpcol hwptr32
    (((List.range ((obs.length >>> 18) + 1)).map
        (fun j => (accEntries (runAcc obs var input)).filter
          (fun e => jobOf e = j))).flatten)
    [] rfl
    ({ data := List.replicate (totalNnz input) 0
       indices := List.replicate (totalNnz input) 0
       indptr := 0 :: (cumsum (runAcc obs var input).rowLength).map (signedWrap 32) } : Bufs)
    (by show ((0 : Int) :: (cumsum (runAcc obs var input).rowLength).map
          (signedWrap 32)).length = obs.length + 1
        rw [List.length_cons, List.length_map, length_cumsum, hhlen])
    (by show (List.replicate (totalNnz input) (0 : Int)).length = totalNnz input
        rw [List.length_replicate])
    (by show (List.replicate (totalNnz input) (0 : Int)).length = totalNnz input
        rw [List.length_replicate])
    hcur0
    (by intro r hr k hk
        rw [hcnt0] at hk
        omega)
  obtain ⟨hS1, hS2, hS3, hScur, hSwr⟩ := hinv
  have hiptrD : ∀ r, r ≤ obs.length →
      (runAcc obs var input).finalize.indptr.getD r 0
        = ((startOf (accEntries (runAcc obs var input)) r : Nat) : Int) := by
    intro r hr
    have hip : (runAcc obs var input).finalize.indptr
        = finalizeIndptr ((((List.range ((obs.length >>> 18) + 1)).map
            (fun j => (accEntries (runAcc obs var input)).filter
              (fun e => jobOf e = j))).flatten).foldl (procEntry 32)
          ({ data := List.replicate (totalNnz input) 0
             indices := List.replicate (totalNnz input) 0
             indptr := 0 :: (cumsum (runAcc obs var input).rowLength).map
               (signedWrap 32) } : Bufs)).indptr := by
      rw [hfin]
    rw [hip, finalizeIndptr_eq,
      getD_dropLast _ r 0 (by rw [List.length_cons, hS1]; omega)]
    cases r with
    | zero =>
      rw [List.getD_cons_zero, startOf_zero]
      rfl
    | succ s =>
      have hs : s < obs.length := by omega
      rw [List.getD_cons_succ, hScur s (by omega), hSO s (by omega), hCR s hs, ← startOf_succ]
  have hshape : (runAcc obs var input).finalize.shape = (obs.length, var.length) := by
    rw [hfin]
    exact hsh
  have hlen1 : (runAcc obs var input).finalize.indptr.length = obs.length + 1 := by
    rw [hfin]
    show (finalizeIndptr _).length = _
    rw [finalizeIndptr_eq, List.length_dropLast, List.length_cons, hS1]
    omega
  have hlen2 : (runAcc obs var input).finalize.data.length = totalNnz input := by
    rw [hfin]
    exact hS2
  have hlen3 : (runAcc obs var input).finalize.indices.length = totalNnz input := by
    rw [hfin]
    exact hS3
  have hslice : ∀ r, r < obs.length →
      rowSlicePairs ((runAcc obs var input).finalize) r
        = (rowFilter (accEntries (runAcc obs var input)) r).map (fun e => (e.2.1, e.2.2)) := by
    intro r hr
    have hbound : startOf (accEntries (runAcc obs var input)) r
        + countRow (accEntries (runAcc obs var input)) r ≤ totalNnz input := by
      rw [← startOf_succ, ← hfullE]
      exact startOf_mono _ (by omega)
    have hD : (runAcc obs var input).finalize.data
        = ((((List.range ((obs.length >>> 18) + 1)).map
            (fun j => (accEntries (runAcc obs var input)).filter
              (fun e => jobOf e = j))).flatten).foldl (procEntry 32)
          ({ data := List.replicate (totalNnz input) 0
             indices := List.replicate (totalNnz input) 0
             indptr := 0 :: (cumsum (runAcc obs var input).rowLength).map
               (signedWrap 32) } : Bufs)).data := by
      rw [hfin]
    have hI : (runAcc obs var input).finalize.indices
        = ((((List.range ((obs.length >>> 18) + 1)).map
            (fun j => (accEntries (runAcc obs var input)).filter
              (fun e => jobOf e = j))).flatten).foldl (procEntry 32)
          ({ data := List.replicate (totalNnz input) 0
             indices := List.replicate (totalNnz input) 0
             indptr := 0 :: (cumsum (runAcc obs var input).rowLength).map
               (signedWrap 32) } : Bufs)).indices := by
      rw [hfin]
    unfold rowSlicePairs
    rw [hiptrD r (le_of_lt hr), hiptrD (r + 1) hr, Int.toNat_natCast, Int.toNat_natCast,
      startOf_succ, Nat.add_sub_cancel_left]
    apply ext_getD _ _ ((0 : Int), (0 : Int))
    · rw [List.length_take, List.length_drop, List.length_zip, hI, hD, hS3, hS2,
        List.length_map]
      show min _ ((min _ _) - _) = (rowFilter (accEntries (runAcc obs var input)) r).length
      rw [Nat.min_self]
      have hcr : (rowFilter (accEntries (runAcc obs var input)) r).length
          = countRow (accEntries (runAcc obs var input)) r := rfl
      omega
    · intro k hk
      have hkc : k < countRow (accEntries (runAcc obs var input)) r := by
        rw [List.length_take, List.length_drop] at hk
        omega
      have hkLp : k < countRow (((List.range ((obs.length >>> 18) + 1)).map
          (fun j => (accEntries (runAcc obs var input)).filter
            (fun e => jobOf e = j))).flatten) r := by
        rw [hCR r hr]
        exact hkc
      have hpos : startOf (accEntries (runAcc obs var input)) r + k < totalNnz input := by
        omega
      obtain ⟨hwc, hwd⟩ := hSwr r hr k hkLp
      rw [hSO r (le_of_lt hr), hRF r hr] at hwc hwd
      rw [drop_take_getD _ _ _ _ _ hkc, hI, hD,
        zip_getD _ _ _ _ _ (by rw [hS3]; exact hpos) (by rw [hS2]; exact hpos),
        hwc, hwd,
        map_getD _ _ k (0 : Int) ((0 : Int), (0 : Int), (0 : Int)) hkc,
        map_getD _ _ k (0 : Int) ((0 : Int), (0 : Int), (0 : Int)) hkc,
        map_getD _ _ k ((0 : Int), (0 : Int)) ((0 : Int), (0 : Int), (0 : Int)) hkc]
  exact ⟨hshape, hlen1, hlen2, hlen3, hiptrD, hslice⟩

/-- Supporting theorem for the non-empty case of P1/P2: with at least one
entry the result is a well-formed CSR: `indptr` has length `n_rows + 1`,
starts at `0`, is monotone, and ends at `nnz`, which is also the length of
`data` and of `indices`. -/
theorem finalize_wellformed (obs var : List Int) (input : List InChunk)
    (hlen : ∀ c ∈ input, c.1.length = c.2.2.length ∧ c.2.1.length = c.2.2.length)
    (hrow : ∀ c ∈ input, ∀ id ∈ c.1, id ∈ obs)
    (hobs : obs.length ≤ 2 ^ 31 - 1) (hvar : var.length ≤ 2 ^ 31 - 1)
    (hcap : totalNnz input ≤ 2 ^ 31 - 1)
    (hnnz : 0 < totalNnz input) :
    (runAcc obs var input).finalize.indptr.length = obs.length + 1 ∧
    (runAcc obs var input).finalize.indptr.getD 0 0 = 0 ∧
    (∀ r r', r ≤ r' → r' ≤ obs.length →
      (runAcc obs var input).finalize.indptr.getD r 0
        ≤ (runAcc obs var input).finalize.indptr.getD r' 0) ∧
    (runAcc obs var input).finalize.indptr.getD obs.length 0 = ((totalNnz input : Nat) : Int) ∧
    (runAcc obs var input).finalize.data.length = totalNnz input ∧
    (runAcc obs var input).finalize.indices.length = totalNnz input := by
  obtain ⟨hsh, h1, h2, h3, hD, _⟩ := finalize_spec obs var input hlen hrow hobs hvar hcap hnnz
  refine ⟨h1, ?_, ?_, ?_, h2, h3⟩
  · rw [hD 0 (by omega), startOf_zero]
    rfl
  · intro r r' hrr hr'
    rw [hD r (le_trans hrr hr'), hD r' hr']
    exact Nat.cast_le.mpr (startOf_mono _ hrr)
  · rw [hD obs.length le_rfl, startOf_full obs.length _
      (accEntries_valid obs var input hobs hrow), accEntries_length obs var input hlen]

/-! ## The claims -/

/-- C2: the claim asserts that for every accumulation, including one with
zero appended entries, `finalize` returns an `indptr` of length
`n_rows + 1`.  The code instead returns the `indptr` of a 0×0 scipy matrix
(length 1) whenever `nnz == 0`: over 3×4 axis domains with no chunks
appended the result has `indptr` of length 1 while the claim requires
`3 + 1 = 4`.  (The non-empty case is proved in `finalize_wellformed`.) -/
theorem c2_empty_indptr_length :
    (runAcc [0, 1, 2] [0, 1, 2, 3] []).finalize.indptr.length = 1 ∧
    (runAcc [0, 1, 2] [0, 1, 2, 3] []).finalize.shape = (3, 4) ∧
    (1 : Nat) ≠ 3 + 1 :=
  ⟨rfl, rfl, by omega⟩

/-- C3: the claim asserts that an empty accumulation over a 5×5 request
yields an all-zero `indptr` of length `n_rows + 1 = 6`; the code returns
`data = []`, `indices = []` and `indptr = [0]` of length 1 (the components
of `sparse.csr_matrix((0, 0))`) together with `shape = (5, 5)`. -/
theorem c3_empty_result :
    (runAcc [0, 1, 2, 3, 4] [0, 1, 2, 3, 4] []).finalize
      = { data := [], indptr := [0], indices := [], shape := (5, 5) } ∧
    ¬ (runAcc [0, 1, 2, 3, 4] [0, 1, 2, 3, 4] []).finalize.indptr.length = 5 + 1 :=
  ⟨rfl, by decide⟩

/-- C5: `_select_dtype` returns the 32-bit width for any bound at most
`2^31 - 1` and the 64-bit width above, including both boundary values. -/
theorem c5_select_dtype :
    (∀ b : Int, selectDtype b = if b ≤ 2 ^ 31 - 1 then 32 else 64) ∧
    selectDtype (2 ^ 31 - 1) = 32 ∧ selectDtype (2 ^ 31) = 64 := by
  have h31 : (2 : Int) ^ 31 - 1 = 2147483647 := by norm_num
  refine ⟨fun b => ?_, ?_, ?_⟩
  · unfold selectDtype
    rw [h31]
    by_cases hb : b ≤ 2147483647
    · rw [if_neg (by omega), if_pos hb]
    · rw [if_pos (by omega), if_neg hb]
  · unfold selectDtype
    rw [if_neg (by norm_num)]
  · unfold selectDtype
    rw [if_pos (by norm_num)]

/-- C6: `_create_scipy_csr_matrix` assigns the four CSR components to the
matrix object exactly as given, with no validation, scan, or change. -/
theorem c6_create_csr (data indices : List Int) (indptr : List Nat) (shape : Nat × Nat) :
    (createScipyCsrMatrix data indices indptr shape).data = data ∧
    (createScipyCsrMatrix data indices indptr shape).indices = indices ∧
    (createScipyCsrMatrix data indices indptr shape).indptr = indptr ∧
    (createScipyCsrMatrix data indices indptr shape).shape = shape :=
  ⟨rfl, rfl, rfl, rfl⟩

/-- C7 counterexample: `append` performs no length check.  Called with a
1-element row array but 2-element col and value arrays, it raises nothing
and stores the mismatched chunk verbatim. -/
theorem c7_mismatch_stored :
    ([0] : List Int).length ≠ ([0, 0] : List Int).length ∧
    ((mkAcc [0] [0]).append [0] [0, 0] [5, 6]).cooChunks
      = [{ rows := [0], cols := [0, 0], data := [5, 6] }] := by
  constructor
  · decide
  · decide

/-- C7 amended: `append` validates nothing about its argument lengths; it
always stores the re-indexed chunk as given (each component at its own
length) and counts every row id into the histogram. -/
theorem c7_append_no_length_check (a : Acc) (rowJoinids colJoinids vals : List Int) :
    (a.append rowJoinids colJoinids vals).cooChunks
      = a.cooChunks
        ++ [{ rows := reindexAndCast a.obsJoinids rowJoinids (selectDtype (a.shape.1 : Int))
              cols := reindexAndCast a.varJoinids colJoinids (selectDtype (a.shape.2 : Int))
              data := vals }] ∧
    (a.append rowJoinids colJoinids vals).rowLength
      = accumRowLength a.rowLength
          (reindexAndCast a.obsJoinids rowJoinids (selectDtype (a.shape.1 : Int)))
          (selectDtype (a.shape.2 : Int)) ∧
    (a.append rowJoinids colJoinids vals).shape = a.shape :=
  ⟨rfl, rfl, rfl⟩

/-- C9: `finalize` reads but never assigns the accumulator's attributes
(all mutated buffers are freshly allocated), so the threaded state is
unchanged field by field, and a second call returns the same result. -/
theorem c9_finalize_pure (a : Acc) :
    a.finalizeMut.2 = a ∧
    a.finalizeMut.2.shape = a.shape ∧
    a.finalizeMut.2.obsJoinids = a.obsJoinids ∧
    a.finalizeMut.2.varJoinids = a.varJoinids ∧
    a.finalizeMut.2.rowLength = a.rowLength ∧
    a.finalizeMut.2.cooChunks = a.cooChunks ∧
    a.finalizeMut.2.finalizeMut.1 = a.finalizeMut.1 :=
  ⟨rfl, rfl, rfl, rfl, rfl, rfl, rfl⟩

/-- C10: when the input is not a 2-D `SparseNDArray`, both top-level read
operations return the `TypeError` before any read or accumulation — the
result is this error whatever batches the source would yield. -/
theorem c10_read_type_error (m : SparseNDArrayLike) (obsJoinids varJoinids : List Int)
    (h : m.isSparseNDArray = false ∨ m.ndim ≠ 2) :
    readScipyCsr m obsJoinids varJoinids
        = Except.error "TypeError: Can only read from a 2D SparseNDArray" ∧
    readArrowCsr m obsJoinids varJoinids
        = Except.error "TypeError: Can only read from a 2D SparseNDArray" := by
  unfold readScipyCsr readArrowCsr readCsrE
  rw [if_pos h]
  exact ⟨rfl, rfl⟩

/-- C10 witness: a 1-dimensional input is rejected by both readers. -/
theorem c10_read_type_error_witness :
    ((⟨true, 1, []⟩ : SparseNDArrayLike).isSparseNDArray = false
        ∨ (⟨true, 1, []⟩ : SparseNDArrayLike).ndim ≠ 2) ∧
    (readScipyCsr ⟨true, 1, []⟩ [] []
        = Except.error "TypeError: Can only read from a 2D SparseNDArray" ∧
     readArrowCsr ⟨true, 1, []⟩ [] []
        = Except.error "TypeError: Can only read from a 2D SparseNDArray") :=
  ⟨by decide, c10_read_type_error ⟨true, 1, []⟩ [] [] (by decide)⟩

/-- C8: over a duplicate-free domain whose length fits the target width,
`_reindex_and_cast` maps every id to its positional index in the domain and
every absent id to the sentinel `-1`; being a pure function of its inputs it
has no side effects. -/
theorem c8_reindex (domain ids : List Int) (w : Nat)
    (hnd : domain.Nodup) (hw : 0 < w)
    (hdom : (domain.length : Int) ≤ 2 ^ (w - 1) - 1) :
    (reindexAndCast domain ids w).length = ids.length ∧
    (∀ j, j < ids.length → ids.getD j 0 ∉ domain →
        (reindexAndCast domain ids w).getD j 0 = -1) ∧
    (∀ j, j < ids.length → ∀ i, i < domain.length → domain.getD i 0 = ids.getD j 0 →
        (reindexAndCast domain ids w).getD j 0 = (i : Int)) := by
  have hpow : (0 : Int) < 2 ^ (w - 1) := by positivity
  have hres : ∀ j, j < ids.length →
      (reindexAndCast domain ids w).getD j 0
        = signedWrap w (lookupPos domain (ids.getD j 0)) := by
    intro j hj
    unfold reindexAndCast getIndexer
    rw [map_getD (signedWrap w) _ j 0 0 (by rw [List.length_map]; exact hj),
      map_getD (lookupPos domain) _ j 0 0 hj]
  refine ⟨?_, ?_, ?_⟩
  · unfold reindexAndCast getIndexer
    rw [List.length_map, List.length_map]
  · intro j hj hmem
    rw [hres j hj, lookupPos_not_mem hmem]
    exact signedWrap_eq_self w (-1) hw (by omega) (by omega)
  · intro j hj i hi hgd
    rw [hres j hj, lookupPos_nodup hnd hi hgd]
    apply signedWrap_eq_self w _ hw
    · omega
    · have hcast : (i : Int) < (domain.length : Int) := by exact_mod_cast hi
      omega

/-- C8 witness: domain `[10, 20]`, ids `[20, 30]`, 32-bit target: id `20`
maps to position `1`, the absent id `30` maps to `-1`. -/
theorem c8_reindex_witness :
    ((([10, 20] : List Int)).Nodup ∧ 0 < 32 ∧
      ((([10, 20] : List Int)).length : Int) ≤ 2 ^ (32 - 1) - 1) ∧
    ((reindexAndCast [10, 20] [20, 30] 32).length = ([20, 30] : List Int).length ∧
     (∀ j, j < ([20, 30] : List Int).length →
        ([20, 30] : List Int).getD j 0 ∉ ([10, 20] : List Int) →
        (reindexAndCast [10, 20] [20, 30] 32).getD j 0 = -1) ∧
     (∀ j, j < ([20, 30] : List Int).length →
        ∀ i, i < ([10, 20] : List Int).length →
        ([10, 20] : List Int).getD i 0 = ([20, 30] : List Int).getD j 0 →
        (reindexAndCast [10, 20] [20, 30] 32).getD j 0 = (i : Int))) :=
  ⟨⟨by decide, by decide, by decide⟩,
    c8_reindex [10, 20] [20, 30] 32 (by decide) (by decide) (by decide)⟩

end FastCsr
